import Mathlib

/-!
Verification of the URL-harvesting pipeline of this repository (`src/crawler.py`,
running on Python 3.11) against its specification.

Representation choices:
* a Python `str` is modelled as `List Char` (Python strings are sequences of
  Unicode code points with positional indexing);
* the pure stdlib functions the source calls (`urllib.parse.urlparse`,
  `urllib.parse.urlunparse`, `re.sub`, `re.search` of the one compiled pattern)
  are embedded following the CPython 3.11 sources of `urllib/parse.py`;
* fallible parsing (`urlparse` may raise `ValueError`) is modelled with `Option`;
* the async message flow (`asyncio.Queue`) is modelled by explicit message
  traces; `output_queue.qsize()` observations are inputs of the model so that
  every producer/consumer interleaving is covered.
-/

namespace Crawler

/-- Characters valid in a scheme name: `urllib.parse.scheme_chars`. -/
def schemeChars : List Char :=
  "abcdefghijklmnopqrstuvwxyzABCDEFGHIJKLMNOPQRSTUVWXYZ0123456789+-.".data

/-- Schemes for which `urlparse` separates path parameters: `urllib.parse.uses_params`. -/
def usesParams : List (List Char) :=
  (["", "ftp", "hdl", "prospero", "http", "imap", "https", "shttp", "rtsp",
    "rtspu", "sip", "sips", "mms", "sftp", "tel"]).map String.data

/-- Schemes that use a network location: `urllib.parse.uses_netloc`. -/
def usesNetloc : List (List Char) :=
  (["", "ftp", "http", "gopher", "nntp", "telnet", "imap", "wais", "file", "mms",
    "https", "shttp", "snews", "prospero", "rtsp", "rtspu", "rsync", "svn",
    "svn+ssh", "sftp", "nfs", "git", "git+ssh", "ws", "wss"]).map String.data

/-- Python `str.lower`, per character.  `Char.toLower` lowers exactly the basic
latin letters, which coincides with Python on every ASCII string. -/
def pyLower (l : List Char) : List Char := l.map Char.toLower

/-- The unsafe bytes removed from a URL by `urlsplit`:
`_UNSAFE_URL_BYTES_TO_REMOVE = ["\t", "\r", "\n"]`. -/
def isUnsafeChar (c : Char) : Bool := c == '\t' || c == '\r' || c == '\n'

/-- First step of `urlsplit`: `url = url.replace(b, "")` for each unsafe byte. -/
def stripUnsafe (l : List Char) : List Char := l.filter fun c => !isUnsafeChar c

/-- Python `s.split(x, 1)` at the first occurrence of `x`: the part before the
first `x` and the part after it (`(s, '')` when `x` does not occur, matching
the callers, which only split when `x` is present). -/
def pySplitFirst (x : Char) (l : List Char) : List Char × List Char :=
  (l.takeWhile fun c => !(c == x), (l.dropWhile fun c => !(c == x)).drop 1)

/-- Whether a Python string is headed by an ASCII letter:
`url[0].isascii() and url[0].isalpha()` (false on the empty string because
`url[0]` of an empty string cannot be reached when `i > 0`). -/
def headAlpha : List Char → Bool
  | [] => false
  | c :: _ => c.isAlpha

/-- The scheme-recognition step of `urlsplit`:
`i = url.find(':')`; when `i > 0`, `url[0]` is an ASCII letter and every
character of `url[:i]` lies in `scheme_chars`, the scheme is `url[:i].lower()`
and the remainder is `url[i+1:]`; otherwise the scheme is empty.  Splitting at
the first `':'` computes `url[:i]` and `url[i+1:]`, and `i > 0` is `':' ∈ url`
with a non-empty part before it. -/
def schemeSplit (l : List Char) : List Char × List Char :=
  if ':' ∈ l then
    let pre := (pySplitFirst ':' l).1
    if pre ≠ [] ∧ headAlpha pre ∧ pre.all (fun c => c ∈ schemeChars) then
      (pyLower pre, (pySplitFirst ':' l).2)
    else ([], l)
  else ([], l)

/-- Delimiters ending the netloc in `_splitnetloc` (`'/?#'`). -/
def isNetlocEnd (c : Char) : Bool := c == '/' || c == '?' || c == '#'

/-- The netloc step of `urlsplit`: when `url[:2] == '//'`, `_splitnetloc(url, 2)`
takes everything up to the earliest of `/?#`; a netloc containing `[` without
`]` (or conversely) raises `ValueError("Invalid IPv6 URL")`. -/
def netlocSplit (l : List Char) : Option (List Char × List Char) :=
  if l.take 2 = ['/', '/'] then
    let rest := l.drop 2
    let netloc := rest.takeWhile fun c => !isNetlocEnd c
    let rest' := rest.dropWhile fun c => !isNetlocEnd c
    if ('[' ∈ netloc ∧ ']' ∉ netloc) ∨ (']' ∈ netloc ∧ '[' ∉ netloc) then none
    else some (netloc, rest')
  else some ([], l)

/-- Fragment step: `if '#' in url: url, fragment = url.split('#', 1)`. -/
def fragSplit (l : List Char) : List Char × List Char :=
  if '#' ∈ l then pySplitFirst '#' l else (l, [])

/-- Query step: `if '?' in url: url, query = url.split('?', 1)`. -/
def querySplit (l : List Char) : List Char × List Char :=
  if '?' ∈ l then pySplitFirst '?' l else (l, [])

/-- NFKC normalization, used by `_checknetloc` only on non-ASCII netlocs.  The
embedding models it as the identity, which is exact for every NFKC-stable
string -- in particular for every ASCII string. -/
def nfkcNormalize (l : List Char) : List Char := l

/-- Python `_checknetloc`: returns normally for an empty or all-ASCII netloc;
otherwise it re-checks the netloc after NFKC normalization. -/
def checknetloc (netloc : List Char) : Bool :=
  if netloc = [] ∨ netloc.all (fun c => c.toNat < 128) then true
  else
    let n := netloc.filter fun c => !(c == '@' || c == ':' || c == '#' || c == '?')
    let n2 := nfkcNormalize n
    if n2 = n then true
    else !(['/', '?', '#', '@', ':'].any fun c => c ∈ n2)

/-- Result of `urlsplit`: scheme, netloc, path, query, fragment. -/
structure SplitResult where
  scheme : List Char
  netloc : List Char
  path : List Char
  query : List Char
  fragment : List Char
deriving DecidableEq

/-- `urllib.parse.urlsplit` for `str` input with default arguments
(`scheme=''`, `allow_fragments=True`), CPython 3.11: strip unsafe bytes,
recognise the scheme, split the netloc (validating IPv6 brackets), split the
fragment at the first `#`, then the query at the first `?`, then check the
netloc.  `none` models a raised `ValueError`. -/
def urlsplit (url : List Char) : Option SplitResult :=
  let u1 := stripUnsafe url
  let s := schemeSplit u1
  match netlocSplit s.2 with
  | none => none
  | some (netloc, u3) =>
    let f := fragSplit u3
    let q := querySplit f.1
    if checknetloc netloc then some ⟨s.1, netloc, q.1, q.2, f.2⟩ else none

/-- Suffix of `l` strictly after its last `'/'` (all of `l` when `'/'` does not
occur); `url[url.rfind('/') + 1 :]`. -/
def afterLastSlash (l : List Char) : List Char :=
  (l.reverse.takeWhile fun c => !(c == '/')).reverse

/-- Python `_splitparams(url)`: with `'/'` in `url`, `i = url.find(';', url.rfind('/'))`
(the first `;` in the suffix after the last `/`, since the character at
`url.rfind('/')` is `/` itself), returning `(url, '')` when there is none, else
`(url[:i], url[i+1:])`; without `'/'`, `i = url.find(';')` (the caller
guarantees a `;` is present). -/
def splitparams (l : List Char) : List Char × List Char :=
  if '/' ∈ l then
    let b := afterLastSlash l
    let a := l.take (l.length - b.length)
    if ';' ∈ b then (a ++ (pySplitFirst ';' b).1, (pySplitFirst ';' b).2)
    else (l, [])
  else
    if ';' ∈ l then pySplitFirst ';' l else (l, [])

/-- Result of `urlparse`: scheme, netloc, path, params, query, fragment. -/
structure ParseResult where
  scheme : List Char
  netloc : List Char
  path : List Char
  params : List Char
  query : List Char
  fragment : List Char
deriving DecidableEq

/-- `urllib.parse.urlparse` for `str` input with default arguments:
`urlsplit`, then `_splitparams` on the path when the scheme uses parameters and
the path contains a `;`. -/
def urlparse (url : List Char) : Option ParseResult :=
  match urlsplit url with
  | none => none
  | some s =>
    if s.scheme ∈ usesParams ∧ ';' ∈ s.path then
      let pq := splitparams s.path
      some ⟨s.scheme, s.netloc, pq.1, pq.2, s.query, s.fragment⟩
    else
      some ⟨s.scheme, s.netloc, s.path, [], s.query, s.fragment⟩

/-- The slash `urlunsplit` inserts before a relative path that goes under a
netloc: `if url and url[:1] != '/': url = '/' + url`. -/
def ensureSlash (url : List Char) : List Char :=
  if url ≠ [] ∧ url.take 1 ≠ ['/'] then '/' :: url else url

/-- `urllib.parse.urlunsplit` (CPython 3.11): prepend `//netloc` when there is a
netloc, or when the scheme uses a netloc and the path does not already start
with `//` (ensuring the path then starts with `/`); then attach scheme, query
and fragment.  Python truthiness of a string is non-emptiness. -/
def urlunsplit (scheme netloc path query fragment : List Char) : List Char :=
  let url := path
  let url :=
    if netloc ≠ [] ∨ (scheme ≠ [] ∧ scheme ∈ usesNetloc ∧ url.take 2 ≠ ['/', '/']) then
      '/' :: '/' :: (netloc ++ ensureSlash url)
    else url
  let url := if scheme ≠ [] then scheme ++ ':' :: url else url
  let url := if query ≠ [] then url ++ '?' :: query else url
  if fragment ≠ [] then url ++ '#' :: fragment else url

/-- `urllib.parse.urlunparse`: re-join path and params with `;`, then `urlunsplit`. -/
def urlunparse (scheme netloc path params query fragment : List Char) : List Char :=
  urlunsplit scheme netloc (if params ≠ [] then path ++ ';' :: params else path) query fragment

/-- Embedding of `re.sub(r'/+', '/', path)`: every maximal run of consecutive
slashes is replaced by a single slash (the first of the run is kept, the
following ones are dropped).  The boolean records whether the previous kept
position was inside a slash run. -/
def collapseAux : Bool → List Char → List Char
  | _, [] => []
  | afterSlash, c :: rest =>
    if c = '/' then
      if afterSlash then collapseAux true rest else '/' :: collapseAux true rest
    else c :: collapseAux false rest

/-- `re.sub(r'/+', '/', path)` as used by `normalize_url`. -/
def collapseSlashes (l : List Char) : List Char := collapseAux false l

/-- The specification's description of the same operation, stated independently:
working from the right, a slash is dropped exactly when the next kept character
is again a slash, so each run of one-or-more slashes collapses to one. -/
def collapseRunsSpec (l : List Char) : List Char :=
  l.foldr (fun c acc => if c = '/' ∧ acc.head? = some '/' then acc else c :: acc) []

/-- `normalize_url` from `src/crawler.py` (lines 47-75): parse; lowercase the
netloc; collapse slash runs in the path; keep params, query and fragment; then
reassemble.  If parsing raises, the original string is returned unchanged. -/
def normalize_url (url : List Char) : List Char :=
  match urlparse url with
  | none => url
  | some p =>
    urlunparse p.scheme (pyLower p.netloc) (collapseSlashes p.path) p.params p.query p.fragment

/-- `PARAM_PATTERN.search` for `PARAM_PATTERN = re.compile(r".*\?.*=.*")`
(src/crawler.py line 12).  Without `re.DOTALL`, `.` matches any character
except a newline, so the pattern finds a match exactly when some `?` is
followed, later in the string, by a `=` with no newline strictly between them.
The scan keeps a flag: a `?` arms it, a newline disarms it, and an `=` while
armed is a match. -/
def paramSearchAux : Bool → List Char → Bool
  | _, [] => false
  | seenQ, c :: rest =>
    if seenQ && c == '=' then true
    else paramSearchAux (if c == '\n' then false else seenQ || c == '?') rest

/-- Truthiness of `PARAM_PATTERN.search(normalized)`. -/
def param_pattern_search (l : List Char) : Bool := paramSearchAux false l

/-- `is_param_url` from `src/crawler.py` (lines 78-81): the normalized URL when
the pattern matches it, `None` otherwise. -/
def is_param_url (url : List Char) : Option (List Char) :=
  let normalized := normalize_url url
  if param_pattern_search normalized then some normalized else none

/-- Python truthiness of a `str | None` value: `None` and `""` are falsy. -/
def strOptTruthy : Option (List Char) → Bool
  | none => false
  | some s => !(s.isEmpty)

/-- `filter_urls_parallel` from `src/crawler.py` (lines 84-91):
`executor.map(is_param_url, urls)` yields the results in input order, and the
comprehension `[url for url in results if url]` keeps the truthy ones. -/
def filter_urls_parallel (urls : List (List Char)) : List (List Char) :=
  let results := urls.map is_param_url
  (results.filter strOptTruthy).filterMap id

/-- Spec-side predicate, in the claim's words: the string contains a `?`
followed, anywhere later in the string, by a `=` (no condition on the
characters in between). -/
def qThenEqAux : Bool → List Char → Bool
  | _, [] => false
  | seenQ, c :: rest =>
    if seenQ && c == '=' then true else qThenEqAux (seenQ || c == '?') rest

/-- The string contains a `?` followed anywhere later by a `=`. -/
def qThenEq (l : List Char) : Bool := qThenEqAux false l

/-- The block `append_to_file` writes in one call (src/crawler.py lines 94-99):
`'\n'.join(data) + '\n'`. -/
def append_to_file (data : List (List Char)) : List Char :=
  (List.intercalate ['\n'] data) ++ ['\n']

/-- A progress message as placed on `output_queue`: the 4-tuple
`(msg_type, domain, all_count, param_count)`. -/
structure PyMsg where
  msgType : List Char
  domain : List Char
  allCount : Nat
  paramCount : Nat
deriving DecidableEq

/-- Observable effects of one domain task, in program order: a message put on
`output_queue`, or a block appended to a sink file. -/
inductive Ev where
  | put : PyMsg → Ev
  | fileAppend : List Char → List (List Char) → Ev
deriving DecidableEq

/-- The streaming loop of `fetch_all_urls` (src/crawler.py lines 34-41) over
the response's lines: every non-empty line is collected and counted, and each
time the count reaches a multiple of 1000 a `partial` message is enqueued. -/
def fetchAux (domain : List Char) : List (List Char) → Nat → List (List Char) × List Ev
  | [], _ => ([], [])
  | line :: rest, count =>
    if line = [] then fetchAux domain rest count
    else
      let c := count + 1
      let r := fetchAux domain rest c
      (line :: r.1,
       (if c % 1000 = 0 then [Ev.put ⟨"partial".data, domain, c, 0⟩] else []) ++ r.2)

/-- `fetch_all_urls` for one domain, with the network response abstracted as
the list of lines the stream yields: returns the collected lines and the trace
of `partial` messages. -/
def fetch_all_urls (domain : List Char) (raw : List (List Char)) :
    List (List Char) × List Ev :=
  fetchAux domain raw 0

/-- `process_domain` (src/crawler.py lines 102-123): fetch, filter, append the
full set then the filtered set (both appends complete inside the
`asyncio.gather` before the next line runs), then enqueue the single
`complete` message.  Returns the domain's counts and its effect trace. -/
def process_domain (domain : List Char) (raw : List (List Char)) :
    (Nat × Nat) × List Ev :=
  let fr := fetch_all_urls domain raw
  let filtered := filter_urls_parallel fr.1
  ((fr.1.length, filtered.length),
   fr.2 ++ [Ev.fileAppend "all_urls.txt".data fr.1,
            Ev.fileAppend "param_urls.txt".data filtered,
            Ev.put ⟨"complete".data, domain, fr.1.length, filtered.length⟩])

/-- Recogniser for the `complete` message event. -/
def isCompleteEv : Ev → Bool
  | .put m => m.msgType == "complete".data
  | _ => false

/-- Inside `output_manager` the name `domains` (src/crawler.py line 152) is
resolved as a module-level global; `domains` is a local variable of `main`, so
the lookup raises `NameError`.  Modelled as an absent value. -/
def lenDomains : Option Nat := none

/-- How a run of `output_manager` ends, with its `total_all_urls`,
`total_param_urls` and `processed_domains` state: blocked forever on
`output_queue.get()` with no producer left, crashed with `NameError`, or
stopped via the `break`. -/
inductive ManagerOutcome where
  | blocked : Nat → Nat → Nat → ManagerOutcome
  | nameError : Nat → Nat → Nat → ManagerOutcome
  | stopped : Nat → Nat → Nat → ManagerOutcome
deriving DecidableEq

/-- `output_manager` (src/crawler.py lines 126-154) over a consumption trace:
each consumed message is paired with the value `output_queue.qsize()` returns
at that iteration's termination check, so every producer/consumer interleaving
is covered.  A `partial` message only prints; a `complete` message updates the
totals and then evaluates `output_queue.qsize() == 0 and processed_domains ==
len(domains)` -- short-circuiting, so `len(domains)` (a `NameError`) is only
reached when the observed queue size is 0; any other message (in particular the
`done` sentinel) matches no branch and is skipped.  An exhausted trace means
the consumer waits forever. -/
def output_manager : List (PyMsg × Nat) → Nat → Nat → Nat → ManagerOutcome
  | [], a, p, d => .blocked a p d
  | (m, qsz) :: rest, a, p, d =>
    if m.msgType = "partial".data then output_manager rest a p d
    else if m.msgType = "complete".data then
      let a' := a + m.allCount
      let p' := p + m.paramCount
      let d' := d + 1
      if qsz = 0 then
        match lenDomains with
        | none => .nameError a' p' d'
        | some n => if d' = n then .stopped a' p' d' else output_manager rest a' p' d'
      else output_manager rest a' p' d'
    else output_manager rest a p d

/-- Whether the manager stopped via its `break`. -/
def isStopped : ManagerOutcome → Bool
  | .stopped _ _ _ => true
  | _ => false

/-- In `main` (src/crawler.py line 209) the name `total_all_urls` is looked up
as a global; it is a local variable of `output_manager`, so the lookup raises
`NameError`.  Likewise `total_param_urls` (line 210). -/
def lookupTotalAllUrls : Option Nat := none

/-- See `lookupTotalAllUrls`. -/
def lookupTotalParamUrls : Option Nat := none

/-- How `main`'s final phase (src/crawler.py lines 199-210) ends: it awaits the
gathered domain tasks, enqueues the `done` sentinel, awaits `output_task`, and
then prints the final totals.  `reported` is reached only if the manager stops
and both totals resolve. -/
inductive RunOutcome where
  | reported : Nat → Nat → RunOutcome
  | nameError : RunOutcome
  | hung : RunOutcome
deriving DecidableEq

/-- The orchestration tail of `main` over a manager consumption trace. -/
def main_run (msgs : List (PyMsg × Nat)) : RunOutcome :=
  match output_manager msgs 0 0 0 with
  | .nameError _ _ _ => .nameError
  | .blocked _ _ _ => .hung
  | .stopped _ _ _ =>
    match lookupTotalAllUrls, lookupTotalParamUrls with
    | some a, some p => .reported a p
    | _, _ => .nameError

/-- Whether the run reached the final report. -/
def isReported : RunOutcome → Bool
  | .reported _ _ => true
  | _ => false

/-- The string contains a `?` followed, anywhere later, by a `=`, with no
newline strictly between the two (the criterion the compiled pattern
`.*\?.*=.*` actually tests, since `.` does not match a newline). -/
def HasQEqNoNl (l : List Char) : Prop :=
  ∃ a m b, l = a ++ '?' :: m ++ '=' :: b ∧ '\n' ∉ m

/-- The string contains a `=` with no newline anywhere before it. -/
def HasEqNoNl (l : List Char) : Prop :=
  ∃ m b, l = m ++ '=' :: b ∧ '\n' ∉ m

/-- No character of the list is one of the removed unsafe bytes. -/
def NoUnsafe (l : List Char) : Prop := ∀ c ∈ l, isUnsafeChar c = false

/-- No decomposition of the list exhibits a scheme: whenever the list is
`pre ++ ':' :: rest` with `pre` made of scheme characters, `pre` cannot be
headed by an ASCII letter (in particular the scheme-recognition step of
`urlsplit` leaves such a list alone). -/
def NoSchemeAt (l : List Char) : Prop :=
  ∀ pre rest, l = pre ++ ':' :: rest → (∀ c ∈ pre, c ∈ schemeChars) →
    headAlpha pre = true → False

/-- The segment of the list after its last slash (all of it when it holds no
slash) contains no semicolon -- the invariant `_splitparams` leaves on the path
it returns. -/
def TailNoSemi (l : List Char) : Prop :=
  (('/' ∉ l) → ';' ∉ l) ∧ ∀ a b, l = a ++ '/' :: b → '/' ∉ b → ';' ∉ b

/-- Invariants satisfied by every result of `urlparse`. -/
structure ParseInv (r : ParseResult) : Prop where
  scheme_ok : ∀ c ∈ r.scheme, c ∈ schemeChars ∧ c.toLower = c
  scheme_head : r.scheme = [] ∨ headAlpha r.scheme = true
  netloc_ok : ∀ c ∈ r.netloc, isNetlocEnd c = false ∧ isUnsafeChar c = false
  netloc_bracket : '[' ∈ r.netloc ↔ ']' ∈ r.netloc
  path_ok : ∀ c ∈ r.path, c ≠ '?' ∧ c ≠ '#' ∧ isUnsafeChar c = false
  params_ok : ∀ c ∈ r.params, c ≠ '/' ∧ c ≠ '?' ∧ c ≠ '#' ∧ isUnsafeChar c = false
  params_scheme : r.params ≠ [] → r.scheme ∈ usesParams
  params_tail : r.scheme ∈ usesParams → TailNoSemi r.path
  query_ok : ∀ c ∈ r.query, c ≠ '#' ∧ isUnsafeChar c = false
  frag_ok : ∀ c ∈ r.fragment, isUnsafeChar c = false
  no_scheme : r.scheme = [] → NoSchemeAt r.path

/-- The parse invariants together with the fixed points `normalize_url`
establishes: netloc already lowercase, path already slash-collapsed. -/
def NormInv (r : ParseResult) : Prop :=
  ParseInv r ∧ pyLower r.netloc = r.netloc ∧ collapseSlashes r.path = r.path

/-- The component transformation `normalize_url` applies after parsing. -/
def normComponents (r : ParseResult) : ParseResult :=
  ⟨r.scheme, pyLower r.netloc, collapseSlashes r.path, r.params, r.query, r.fragment⟩

/-- The path-plus-params string `urlunparse` hands to `urlunsplit`. -/
def joinParams (r : ParseResult) : List Char :=
  if r.params ≠ [] then r.path ++ ';' :: r.params else r.path

/-- The path component observed when the reassembled URL is parsed again: the
leading slash `urlunsplit` inserts in front of a relative path under a netloc
becomes part of the re-parsed path. -/
def reparsePath (r : ParseResult) : List Char :=
  if r.netloc ≠ [] ∨ (r.scheme ≠ [] ∧ r.scheme ∈ usesNetloc ∧ (joinParams r).take 2 ≠ ['/', '/']) then
    (if joinParams r ≠ [] ∧ (joinParams r).take 1 ≠ ['/'] then '/' :: r.path else r.path)
  else r.path

/-- The parse result after one reassemble-and-reparse round trip. -/
def reparseResult (r : ParseResult) : ParseResult :=
  ⟨r.scheme, r.netloc, reparsePath r, r.params, r.query, r.fragment⟩

/-- Reassembly of a parse result. -/
def unpAll (r : ParseResult) : List Char :=
  urlunparse r.scheme r.netloc r.path r.params r.query r.fragment

/-! ### Helper lemmas -/

/-- The manager's only stopping path evaluates `len(domains)`, and that lookup
fails, so no consumption trace can reach `stopped`. -/
theorem output_manager_not_stopped (msgs : List (PyMsg × Nat)) :
    ∀ a p d, isStopped (output_manager msgs a p d) = false := by
  induction msgs with
  | nil => intro a p d; rfl
  | cons hd tl ih =>
    intro a p d
    obtain ⟨m, qsz⟩ := hd
    simp only [output_manager, lenDomains]
    split
    · exact ih a p d
    · split
      · split
        · rfl
        · exact ih _ _ _
      · exact ih a p d

/-- Every event emitted by the fetch loop is a `partial` progress message. -/
theorem fetchAux_events (domain : List Char) (raw : List (List Char)) :
    ∀ count, ∀ e ∈ (fetchAux domain raw count).2,
      ∃ n, e = Ev.put ⟨"partial".data, domain, n, 0⟩ := by
  induction raw with
  | nil => intro count e he; simp [fetchAux] at he
  | cons line rest ih =>
    intro count e he
    by_cases hl : line = []
    · rw [fetchAux, if_pos hl] at he
      exact ih count e he
    · rw [fetchAux, if_neg hl] at he
      simp only [List.mem_append] at he
      rcases he with he | he
      · by_cases hc : (count + 1) % 1000 = 0
        · rw [if_pos hc] at he
          simp only [List.mem_singleton] at he
          exact ⟨count + 1, he⟩
        · rw [if_neg hc] at he
          simp at he
      · exact ih (count + 1) e he

/-- A fetch event is never a `complete` message. -/
theorem fetchAux_not_complete (domain : List Char) (raw : List (List Char))
    (count : Nat) : ∀ e ∈ (fetchAux domain raw count).2, isCompleteEv e = false := by
  intro e he
  obtain ⟨n, rfl⟩ := fetchAux_events domain raw count e he
  rfl

/-- Unfolding lemma: a slash starting (or continuing into) a run from outside. -/
theorem collapseAux_false_slash (l : List Char) :
    collapseAux false ('/' :: l) = '/' :: collapseAux true l := by
  simp [collapseAux]

/-- Unfolding lemma: a slash inside a run is dropped. -/
theorem collapseAux_true_slash (l : List Char) :
    collapseAux true ('/' :: l) = collapseAux true l := by
  simp [collapseAux]

/-- Unfolding lemma: a non-slash character is kept and ends any run. -/
theorem collapseAux_nonslash (b : Bool) (c : Char) (l : List Char) (h : c ≠ '/') :
    collapseAux b (c :: l) = c :: collapseAux false l := by
  cases b <;> simp [collapseAux, h]

/-- Unfolding lemma for the specification-side fold. -/
theorem collapseRunsSpec_cons (c : Char) (l : List Char) :
    collapseRunsSpec (c :: l) =
      if c = '/' ∧ (collapseRunsSpec l).head? = some '/' then collapseRunsSpec l
      else c :: collapseRunsSpec l := rfl

/-- Simultaneous characterization of the two slash-collapsing definitions:
the left-to-right scan with a state bit computes the same result as the
specification's right fold. -/
theorem collapseAux_eq_spec (l : List Char) :
    collapseAux false l = collapseRunsSpec l ∧
      collapseAux true l =
        (if (collapseRunsSpec l).head? = some '/' then (collapseRunsSpec l).drop 1
         else collapseRunsSpec l) := by
  induction l with
  | nil => exact ⟨rfl, rfl⟩
  | cons c l ih =>
    obtain ⟨ih1, ih2⟩ := ih
    by_cases hc : c = '/'
    · subst hc
      by_cases hh : (collapseRunsSpec l).head? = some '/'
      · have hR : collapseRunsSpec ('/' :: l) = collapseRunsSpec l := by
          rw [collapseRunsSpec_cons, if_pos ⟨rfl, hh⟩]
        have hcons : collapseRunsSpec l = '/' :: (collapseRunsSpec l).drop 1 := by
          cases hE : collapseRunsSpec l with
          | nil => rw [hE] at hh; simp at hh
          | cons x xs =>
            rw [hE] at hh
            simp only [List.head?_cons, Option.some.injEq] at hh
            simp [hh]
        constructor
        · rw [collapseAux_false_slash, ih2, if_pos hh, hR]
          exact hcons.symm
        · rw [collapseAux_true_slash, ih2, if_pos hh, hR, if_pos hh]
      · have hR : collapseRunsSpec ('/' :: l) = '/' :: collapseRunsSpec l := by
          rw [collapseRunsSpec_cons, if_neg (fun h => hh h.2)]
        constructor
        · rw [collapseAux_false_slash, ih2, if_neg hh, hR]
        · rw [collapseAux_true_slash, ih2, if_neg hh, hR]
          simp
    · have hR : collapseRunsSpec (c :: l) = c :: collapseRunsSpec l := by
        rw [collapseRunsSpec_cons, if_neg (fun h => hc h.1)]
      constructor
      · rw [collapseAux_nonslash false c l hc, ih1, hR]
      · rw [collapseAux_nonslash true c l hc, ih1, hR]
        rw [if_neg]
        simp only [List.head?_cons, Option.some.injEq]
        exact hc

/-- The two collapse definitions agree. -/
theorem collapseSlashes_eq_spec (l : List Char) :
    collapseSlashes l = collapseRunsSpec l :=
  (collapseAux_eq_spec l).1

/-- Reading off `normalize_url` on a successfully parsed URL. -/
theorem normalize_url_parse_eq {url : List Char} {r : ParseResult}
    (h : urlparse url = some r) :
    normalize_url url =
      urlunparse r.scheme (pyLower r.netloc) (collapseSlashes r.path)
        r.params r.query r.fragment := by
  unfold normalize_url
  rw [h]

/-! ### Toolkit: the split stages on structured inputs -/

/-- Characters of a list avoiding `x` pass the `!(c == x)` scan. -/
theorem notMem_ne {x : Char} {l : List Char} (h : x ∉ l) :
    ∀ a ∈ l, (!(a == x)) = true := by
  intro a ha
  have hax : a ≠ x := fun hax => h (hax ▸ ha)
  simp [hax]

/-- Strings free of unsafe bytes are unchanged by the stripping step. -/
theorem stripUnsafe_eq_self {l : List Char} (h : NoUnsafe l) : stripUnsafe l = l :=
  List.filter_eq_self.mpr fun a ha => by rw [h a ha]; rfl

/-- The stripped string is free of unsafe bytes. -/
theorem noUnsafe_stripUnsafe (l : List Char) : NoUnsafe (stripUnsafe l) := by
  intro c hc
  have h := List.of_mem_filter hc
  simpa using h

/-- Generic split: when the separator does not occur, nothing is split off. -/
theorem pySplitFirst_absent {x : Char} {l : List Char} (h : x ∉ l) :
    pySplitFirst x l = (l, []) := by
  unfold pySplitFirst
  rw [List.takeWhile_eq_self_iff.mpr (notMem_ne h),
    List.dropWhile_eq_nil_iff.mpr (notMem_ne h)]
  rfl

/-- Generic split at the first occurrence of the separator. -/
theorem pySplitFirst_found (x : Char) {a b : List Char} (h : x ∉ a) :
    pySplitFirst x (a ++ x :: b) = (a, b) := by
  unfold pySplitFirst
  rw [List.takeWhile_append_of_pos (notMem_ne h), List.dropWhile_append_of_pos (notMem_ne h)]
  have hx : (!(x == x)) = false := by simp
  rw [List.takeWhile_cons, hx, List.dropWhile_cons, hx]
  simp

/-- Inversion for the generic split. -/
theorem pySplitFirst_inv (x : Char) (l : List Char) :
    (pySplitFirst x l = (l, []) ∧ x ∉ l) ∨
      ∃ a b, l = a ++ x :: b ∧ x ∉ a ∧ pySplitFirst x l = (a, b) := by
  by_cases hx : x ∈ l
  · right
    have hsplit := List.takeWhile_append_dropWhile (fun c => !(c == x)) l
    cases hd : l.dropWhile (fun c => !(c == x)) with
    | nil =>
      exfalso
      have := List.dropWhile_eq_nil_iff.mp hd x hx
      simp at this
    | cons d rest =>
      have hdx : d = x := by
        have h := List.head?_dropWhile_not (fun c => !(c == x)) l
        rw [hd] at h
        simpa using h
      subst hdx
      refine ⟨l.takeWhile (fun c => !(c == d)), rest, ?_, ?_, ?_⟩
      · rw [← hd, hsplit]
      · intro hmem
        have := List.mem_takeWhile_imp hmem
        simp at this
      · unfold pySplitFirst
        rw [hd]
        rfl
  · exact Or.inl ⟨pySplitFirst_absent hx, hx⟩

/-- The fragment split when no `#` occurs. -/
theorem fragSplit_absent {l : List Char} (h : '#' ∉ l) : fragSplit l = (l, []) := by
  unfold fragSplit
  rw [if_neg h]

/-- The fragment split at the first `#`. -/
theorem fragSplit_found {a b : List Char} (h : '#' ∉ a) :
    fragSplit (a ++ '#' :: b) = (a, b) := by
  unfold fragSplit
  rw [if_pos (List.mem_append_right a (List.mem_cons_self _ _))]
  exact pySplitFirst_found '#' h

/-- The query split when no `?` occurs. -/
theorem querySplit_absent {l : List Char} (h : '?' ∉ l) : querySplit l = (l, []) := by
  unfold querySplit
  rw [if_neg h]

/-- The query split at the first `?`. -/
theorem querySplit_found {a b : List Char} (h : '?' ∉ a) :
    querySplit (a ++ '?' :: b) = (a, b) := by
  unfold querySplit
  rw [if_pos (List.mem_append_right a (List.mem_cons_self _ _))]
  exact pySplitFirst_found '?' h

/-- Inversion for the fragment split. -/
theorem fragSplit_inv (l : List Char) :
    (fragSplit l = (l, []) ∧ '#' ∉ l) ∨
      ∃ a b, l = a ++ '#' :: b ∧ '#' ∉ a ∧ fragSplit l = (a, b) := by
  rcases pySplitFirst_inv '#' l with ⟨_, hx⟩ | ⟨a, b, hl, ha, _⟩
  · exact Or.inl ⟨fragSplit_absent hx, hx⟩
  · exact Or.inr ⟨a, b, hl, ha, hl ▸ fragSplit_found ha⟩

/-- Inversion for the query split. -/
theorem querySplit_inv (l : List Char) :
    (querySplit l = (l, []) ∧ '?' ∉ l) ∨
      ∃ a b, l = a ++ '?' :: b ∧ '?' ∉ a ∧ querySplit l = (a, b) := by
  rcases pySplitFirst_inv '?' l with ⟨_, hx⟩ | ⟨a, b, hl, ha, _⟩
  · exact Or.inl ⟨querySplit_absent hx, hx⟩
  · exact Or.inr ⟨a, b, hl, ha, hl ▸ querySplit_found ha⟩

/-- The scheme step when the input decomposes as a well-formed scheme followed
by a colon. -/
theorem schemeSplit_pos {pre rest : List Char} (hcolon : ':' ∉ pre)
    (halpha : headAlpha pre = true) (hall : ∀ c ∈ pre, c ∈ schemeChars) :
    schemeSplit (pre ++ ':' :: rest) = (pyLower pre, rest) := by
  have hne : pre ≠ [] := by
    intro h
    rw [h] at halpha
    simp [headAlpha] at halpha
  have hmem : ':' ∈ pre ++ ':' :: rest := List.mem_append_right _ (List.mem_cons_self _ _)
  unfold schemeSplit
  rw [if_pos hmem, pySplitFirst_found ':' hcolon]
  rw [if_pos]
  exact ⟨hne, halpha, List.all_eq_true.mpr fun c hc => decide_eq_true (hall c hc)⟩

/-- Inversion for the scheme step. -/
theorem schemeSplit_cases (l : List Char) :
    schemeSplit l = ([], l) ∨
      ∃ pre rest, l = pre ++ ':' :: rest ∧ ':' ∉ pre ∧ headAlpha pre = true ∧
        (∀ c ∈ pre, c ∈ schemeChars) ∧ schemeSplit l = (pyLower pre, rest) := by
  rcases pySplitFirst_inv ':' l with ⟨_, hx⟩ | ⟨a, b, hl, ha, hs⟩
  · left
    unfold schemeSplit
    rw [if_neg hx]
  · by_cases hcond : headAlpha a = true ∧ ∀ c ∈ a, c ∈ schemeChars
    · right
      exact ⟨a, b, hl, ha, hcond.1, hcond.2, hl ▸ schemeSplit_pos ha hcond.1 hcond.2⟩
    · left
      have hmem : ':' ∈ l := hl ▸ List.mem_append_right _ (List.mem_cons_self _ _)
      unfold schemeSplit
      rw [if_pos hmem, hs]
      rw [if_neg]
      intro hc
      exact hcond ⟨hc.2.1, fun c hcc => by
        have := List.all_eq_true.mp hc.2.2 c hcc
        simpa using this⟩

/-- A list admitting no scheme decomposition is left alone by the scheme step. -/
theorem schemeSplit_of_noscheme {l : List Char} (h : NoSchemeAt l) :
    schemeSplit l = ([], l) := by
  rcases schemeSplit_cases l with hc | ⟨pre, rest, hl, _, halpha, hall, _⟩
  · exact hc
  · exact (h pre rest hl hall halpha).elim

/-- If the scheme step yields an empty scheme, no scheme decomposition exists. -/
theorem noSchemeAt_of_split_nil {l : List Char} (h : (schemeSplit l).1 = []) :
    NoSchemeAt l := by
  intro pre rest heq hall halpha
  have hcolon : ':' ∉ pre := fun hmem => by
    have := hall ':' hmem
    revert this
    decide
  have hps := @schemeSplit_pos pre rest hcolon halpha hall
  rw [heq, hps] at h
  have hpre : pre = [] := by simpa [pyLower] using h
  rw [hpre] at halpha
  simp [headAlpha] at halpha

/-- The netloc step without a leading double slash. -/
theorem netlocSplit_not_slashslash {l : List Char} (h : l.take 2 ≠ ['/', '/']) :
    netlocSplit l = some ([], l) := by
  unfold netlocSplit
  rw [if_neg h]

/-- The netloc step on a well-formed `//netloc rest` input. -/
theorem netlocSplit_pos {n rest : List Char} (hn : ∀ c ∈ n, isNetlocEnd c = false)
    (hrest : ∀ d t, rest = d :: t → isNetlocEnd d = true)
    (hbr : '[' ∈ n ↔ ']' ∈ n) :
    netlocSplit ('/' :: '/' :: (n ++ rest)) = some (n, rest) := by
  have hallb : ∀ c ∈ n, (!isNetlocEnd c) = true := fun c hc => by rw [hn c hc]; rfl
  have htw : (n ++ rest).takeWhile (fun c => !isNetlocEnd c) = n := by
    rw [List.takeWhile_append_of_pos hallb]
    cases hr : rest with
    | nil => simp
    | cons d t =>
      rw [List.takeWhile_cons, hrest d t hr]
      simp
  have hdw : (n ++ rest).dropWhile (fun c => !isNetlocEnd c) = rest := by
    rw [List.dropWhile_append_of_pos hallb]
    cases hr : rest with
    | nil => simp
    | cons d t =>
      rw [List.dropWhile_cons, hrest d t hr]
      simp
  unfold netlocSplit
  have ht2 : List.take 2 ('/' :: '/' :: (n ++ rest)) = ['/', '/'] := rfl
  rw [if_pos ht2]
  simp only [List.drop_succ_cons, List.drop_zero]
  rw [htw, hdw, if_neg]
  rintro (⟨h1, h2⟩ | ⟨h1, h2⟩)
  · exact h2 (hbr.mp h1)
  · exact h2 (hbr.mpr h1)

/-- Inversion for the netloc step. -/
theorem netlocSplit_inv {l n rest : List Char} (h : netlocSplit l = some (n, rest)) :
    (l.take 2 ≠ ['/', '/'] ∧ n = [] ∧ rest = l) ∨
      (l = '/' :: '/' :: (n ++ rest) ∧ (∀ c ∈ n, isNetlocEnd c = false) ∧
        ('[' ∈ n ↔ ']' ∈ n) ∧ ∀ d t, rest = d :: t → isNetlocEnd d = true) := by
  unfold netlocSplit at h
  by_cases h2 : l.take 2 = ['/', '/']
  · rw [if_pos h2] at h
    right
    by_cases hbad : ('[' ∈ (l.drop 2).takeWhile (fun c => !isNetlocEnd c) ∧
        ']' ∉ (l.drop 2).takeWhile (fun c => !isNetlocEnd c)) ∨
        (']' ∈ (l.drop 2).takeWhile (fun c => !isNetlocEnd c) ∧
        '[' ∉ (l.drop 2).takeWhile (fun c => !isNetlocEnd c))
    · rw [if_pos hbad] at h
      exact absurd h (by simp)
    · rw [if_neg hbad] at h
      have hpair := Option.some.inj h
      have hn : n = (l.drop 2).takeWhile (fun c => !isNetlocEnd c) :=
        (congrArg Prod.fst hpair).symm
      have hr : rest = (l.drop 2).dropWhile (fun c => !isNetlocEnd c) :=
        (congrArg Prod.snd hpair).symm
      have hl2 : l = '/' :: '/' :: l.drop 2 := by
        have := List.take_append_drop 2 l
        rw [h2] at this
        exact this.symm
      refine ⟨?_, ?_, ?_, ?_⟩
      · rw [hn, hr]
        conv_lhs => rw [hl2]
        rw [List.takeWhile_append_dropWhile]
      · intro c hc
        rw [hn] at hc
        have := List.mem_takeWhile_imp hc
        simpa using this
      · constructor
        · intro h1
          by_contra hno
          exact hbad (Or.inl ⟨hn ▸ h1, fun hmem => hno (hn ▸ hmem)⟩)
        · intro h1
          by_contra hno
          exact hbad (Or.inr ⟨hn ▸ h1, fun hmem => hno (hn ▸ hmem)⟩)
      · intro d t hrt
        have hhd := List.head?_dropWhile_not (fun c => !isNetlocEnd c) (l.drop 2)
        rw [← hr, hrt] at hhd
        simpa using hhd
  · rw [if_neg h2] at h
    have hpair := Option.some.inj h
    exact Or.inl ⟨h2, (congrArg Prod.fst hpair).symm, (congrArg Prod.snd hpair).symm⟩

/-- Splitting off the suffix after the last slash. -/
theorem afterLastSlash_append {a b : List Char} (hb : '/' ∉ b) :
    afterLastSlash (a ++ '/' :: b) = b := by
  unfold afterLastSlash
  have hrev : (a ++ '/' :: b).reverse = b.reverse ++ '/' :: a.reverse := by simp
  have hbrev : '/' ∉ b.reverse := fun hm => hb (List.mem_reverse.mp hm)
  have hx : (!('/' == '/')) = false := by simp
  rw [hrev, List.takeWhile_append_of_pos (notMem_ne hbrev), List.takeWhile_cons, hx]
  simp

/-- A list without slashes is its own suffix after the last slash. -/
theorem afterLastSlash_no_slash {l : List Char} (h : '/' ∉ l) :
    afterLastSlash l = l := by
  unfold afterLastSlash
  have hrev : '/' ∉ l.reverse := fun hm => h (List.mem_reverse.mp hm)
  rw [List.takeWhile_eq_self_iff.mpr (notMem_ne hrev), List.reverse_reverse]

/-! ### Toolkit: facts about Python str.lower -/

/-- Characters with equal code points are equal. -/
theorem char_toNat_inj {a b : Char} (h : a.toNat = b.toNat) : a = b :=
  Char.ext (UInt32.toNat.inj h)

/-- Code point of `Char.ofNat` on a valid scalar value. -/
theorem char_ofNat_toNat {n : Nat} (h : n.isValidChar) : (Char.ofNat n).toNat = n := by
  simp only [Char.ofNat, dif_pos h, Char.ofNatAux, Char.toNat]
  rfl

/-- Code point of `Char.toLower`: basic latin capitals move up by 32,
everything else is fixed. -/
theorem toLower_toNat (c : Char) :
    (Char.toLower c).toNat =
      if 65 ≤ c.toNat ∧ c.toNat ≤ 90 then c.toNat + 32 else c.toNat := by
  by_cases h : 65 ≤ c.toNat ∧ c.toNat ≤ 90
  · rw [if_pos h]
    have hv : (c.toNat + 32).isValidChar := Or.inl (by omega)
    show (if c.toNat ≥ 65 ∧ c.toNat ≤ 90 then Char.ofNat (c.toNat + 32) else c).toNat = _
    rw [if_pos ⟨h.1, h.2⟩]
    exact char_ofNat_toNat hv
  · rw [if_neg h]
    show (if c.toNat ≥ 65 ∧ c.toNat ≤ 90 then Char.ofNat (c.toNat + 32) else c).toNat = _
    rw [if_neg (fun hc => h ⟨hc.1, hc.2⟩)]

/-- `Char.toLower` fixes everything outside the basic latin capitals. -/
theorem toLower_eq_self {c : Char} (h : ¬(65 ≤ c.toNat ∧ c.toNat ≤ 90)) :
    Char.toLower c = c := by
  show (if c.toNat ≥ 65 ∧ c.toNat ≤ 90 then Char.ofNat (c.toNat + 32) else c) = c
  rw [if_neg (fun hc => h ⟨hc.1, hc.2⟩)]

/-- Lowering is idempotent. -/
theorem toLower_idem (c : Char) : Char.toLower (Char.toLower c) = Char.toLower c := by
  by_cases h : 65 ≤ c.toNat ∧ c.toNat ≤ 90
  · apply toLower_eq_self
    rw [toLower_toNat, if_pos h]
    omega
  · simp only [toLower_eq_self h]

/-- Python `str.lower` is idempotent. -/
theorem pyLower_idem (l : List Char) : pyLower (pyLower l) = pyLower l := by
  unfold pyLower
  rw [List.map_map]
  exact List.map_congr_left fun c _ => toLower_idem c

/-- For a target character that is not a letter, lowering reflects equality. -/
theorem toLower_eq_special {c x : Char} (hx : ¬(97 ≤ x.toNat ∧ x.toNat ≤ 122))
    (hx2 : ¬(65 ≤ x.toNat ∧ x.toNat ≤ 90)) :
    Char.toLower c = x ↔ c = x := by
  constructor
  · intro h
    by_cases hc : 65 ≤ c.toNat ∧ c.toNat ≤ 90
    · exfalso
      have ht := toLower_toNat c
      rw [h, if_pos hc] at ht
      exact hx (by omega)
    · rwa [toLower_eq_self hc] at h
  · intro h
    subst h
    exact toLower_eq_self hx2

/-- Membership of a non-letter character is invariant under `str.lower`. -/
theorem mem_pyLower_special {x : Char} {l : List Char}
    (hx : ¬(97 ≤ x.toNat ∧ x.toNat ≤ 122)) (hx2 : ¬(65 ≤ x.toNat ∧ x.toNat ≤ 90)) :
    x ∈ pyLower l ↔ x ∈ l := by
  unfold pyLower
  rw [List.mem_map]
  constructor
  · rintro ⟨c, hc, hcx⟩
    rwa [(toLower_eq_special hx hx2).mp hcx] at hc
  · intro h
    exact ⟨x, h, (toLower_eq_special hx hx2).mpr rfl⟩

/-- The netloc delimiters in terms of code points. -/
theorem isNetlocEnd_eq_true_iff (c : Char) :
    isNetlocEnd c = true ↔ (c.toNat = 47 ∨ c.toNat = 63 ∨ c.toNat = 35) := by
  unfold isNetlocEnd
  simp only [Bool.or_eq_true, beq_iff_eq]
  constructor
  · rintro ((rfl | rfl) | rfl)
    · exact Or.inl rfl
    · exact Or.inr (Or.inl rfl)
    · exact Or.inr (Or.inr rfl)
  · rintro (h | h | h)
    · exact Or.inl (Or.inl (@char_toNat_inj c '/' h))
    · exact Or.inl (Or.inr (@char_toNat_inj c '?' h))
    · exact Or.inr (@char_toNat_inj c '#' h)

/-- The unsafe bytes in terms of code points. -/
theorem isUnsafeChar_eq_true_iff (c : Char) :
    isUnsafeChar c = true ↔ (c.toNat = 9 ∨ c.toNat = 13 ∨ c.toNat = 10) := by
  unfold isUnsafeChar
  simp only [Bool.or_eq_true, beq_iff_eq]
  constructor
  · rintro ((rfl | rfl) | rfl)
    · exact Or.inl rfl
    · exact Or.inr (Or.inl rfl)
    · exact Or.inr (Or.inr rfl)
  · rintro (h | h | h)
    · exact Or.inl (Or.inl (@char_toNat_inj c '\t' h))
    · exact Or.inl (Or.inr (@char_toNat_inj c '\r' h))
    · exact Or.inr (@char_toNat_inj c '\n' h)

/-- Lowering cannot create a netloc delimiter. -/
theorem isNetlocEnd_toLower_false {c : Char} (h : isNetlocEnd c = false) :
    isNetlocEnd (Char.toLower c) = false := by
  by_cases hc : 65 ≤ c.toNat ∧ c.toNat ≤ 90
  · have ht := toLower_toNat c
    rw [if_pos hc] at ht
    rw [Bool.eq_false_iff]
    intro htrue
    rcases (isNetlocEnd_eq_true_iff _).mp htrue with h1 | h1 | h1 <;> omega
  · rwa [toLower_eq_self hc]

/-- Lowering cannot create an unsafe byte. -/
theorem isUnsafeChar_toLower_false {c : Char} (h : isUnsafeChar c = false) :
    isUnsafeChar (Char.toLower c) = false := by
  by_cases hc : 65 ≤ c.toNat ∧ c.toNat ≤ 90
  · have ht := toLower_toNat c
    rw [if_pos hc] at ht
    rw [Bool.eq_false_iff]
    intro htrue
    rcases (isUnsafeChar_eq_true_iff _).mp htrue with h1 | h1 | h1 <;> omega
  · rwa [toLower_eq_self hc]

/-! ### Toolkit: slash collapsing -/

/-- Collapsing is the identity on slash-free lists. -/
theorem collapseAux_of_no_slash (l : List Char) :
    ∀ b : Bool, '/' ∉ l → collapseAux b l = l := by
  induction l with
  | nil => intro b _; rfl
  | cons c t ih =>
    intro b h
    have hc : c ≠ '/' := fun hcc => h (hcc ▸ List.mem_cons_self c t)
    rw [collapseAux_nonslash b c t hc, ih false fun hm => h (List.mem_cons_of_mem c hm)]

/-- Characters of the collapsed list come from the original. -/
theorem mem_of_mem_collapseAux (l : List Char) :
    ∀ (b : Bool) (c : Char), c ∈ collapseAux b l → c ∈ l := by
  induction l with
  | nil => intro b c h; cases b <;> simp [collapseAux] at h
  | cons d t ih =>
    intro b c h
    by_cases hd : d = '/'
    · subst hd
      cases b with
      | true =>
        rw [collapseAux_true_slash] at h
        exact List.mem_cons_of_mem _ (ih true c h)
      | false =>
        rw [collapseAux_false_slash] at h
        rcases List.mem_cons.mp h with rfl | h2
        · exact List.mem_cons_self _ _
        · exact List.mem_cons_of_mem _ (ih true c h2)
    · rw [collapseAux_nonslash b d t hd] at h
      rcases List.mem_cons.mp h with rfl | h2
      · exact List.mem_cons_self _ _
      · exact List.mem_cons_of_mem _ (ih false c h2)

/-- A slash in the original survives collapsing. -/
theorem slash_mem_collapse (l : List Char) :
    '/' ∈ l → '/' ∈ collapseAux false l := by
  induction l with
  | nil => intro h; simp at h
  | cons c t ih =>
    intro h
    by_cases hc : c = '/'
    · subst hc
      rw [collapseAux_false_slash]
      exact List.mem_cons_self _ _
    · rw [collapseAux_nonslash false c t hc]
      rcases List.mem_cons.mp h with h1 | h2
      · exact absurd h1.symm hc
      · exact List.mem_cons_of_mem _ (ih h2)

/-- Nonempty lists stay nonempty under collapsing from the outside state. -/
theorem collapseAux_false_ne_nil {l : List Char} (h : l ≠ []) :
    collapseAux false l ≠ [] := by
  cases l with
  | nil => exact absurd rfl h
  | cons c t =>
    by_cases hc : c = '/'
    · subst hc
      rw [collapseAux_false_slash]
      exact List.cons_ne_nil _ _
    · rw [collapseAux_nonslash false c t hc]
      exact List.cons_ne_nil _ _

/-- Collapsing distributes over an append whose right part does not start with
a slash. -/
theorem collapseAux_append (a : List Char) :
    ∀ (b : Bool) (r : List Char), (r = [] ∨ ∃ c t, r = c :: t ∧ c ≠ '/') →
      collapseAux b (a ++ r) = collapseAux b a ++ collapseAux false r := by
  induction a with
  | nil =>
    intro b r hr
    rcases hr with rfl | ⟨c, t, rfl, hc⟩
    · cases b <;> rfl
    · rw [List.nil_append, collapseAux_nonslash b c t hc,
        collapseAux_nonslash false c t hc]
      cases b <;> rfl
  | cons x a' ih =>
    intro b r hr
    by_cases hx : x = '/'
    · subst hx
      cases b with
      | false =>
        rw [List.cons_append, collapseAux_false_slash, collapseAux_false_slash,
          ih true r hr, List.cons_append]
      | true =>
        rw [List.cons_append, collapseAux_true_slash, collapseAux_true_slash,
          ih true r hr]
    · rw [List.cons_append, collapseAux_nonslash b x _ hx,
        collapseAux_nonslash b x a' hx, ih false r hr, List.cons_append]

/-- A slash-free left part passes through collapsing. -/
theorem collapseAux_false_pre (pre : List Char) :
    ∀ rest, '/' ∉ pre →
      collapseAux false (pre ++ rest) = pre ++ collapseAux false rest := by
  induction pre with
  | nil => intro rest _; rfl
  | cons c t ih =>
    intro rest h
    have hc : c ≠ '/' := fun hcc => h (hcc ▸ List.mem_cons_self c t)
    rw [List.cons_append, collapseAux_nonslash false c _ hc,
      ih rest fun hm => h (List.mem_cons_of_mem c hm), List.cons_append]

/-- Prefix reflection: a slash-free prefix of the collapsed list is a prefix
of the original. -/
theorem collapse_pre_rev (pre : List Char) :
    ∀ l rest, '/' ∉ pre → collapseAux false l = pre ++ rest →
      ∃ rest2, l = pre ++ rest2 := by
  induction pre with
  | nil => intro l rest _ _; exact ⟨l, rfl⟩
  | cons c p ih =>
    intro l rest h heq
    have hc : c ≠ '/' := fun hcc => h (hcc ▸ List.mem_cons_self c p)
    cases l with
    | nil => simp [collapseAux] at heq
    | cons d t =>
      by_cases hd : d = '/'
      · subst hd
        rw [collapseAux_false_slash] at heq
        rw [List.cons_append] at heq
        injection heq with h1 _
        exact absurd h1.symm hc
      · rw [collapseAux_nonslash false d t hd] at heq
        rw [List.cons_append] at heq
        injection heq with h1 h2
        subst h1
        obtain ⟨rest2, hrest2⟩ := ih t rest (fun hm => h (List.mem_cons_of_mem _ hm)) h2
        exact ⟨rest2, by rw [hrest2, List.cons_append]⟩

/-- Idempotence of the collapsing scan, in both states. -/
theorem collapseAux_idem (l : List Char) :
    collapseAux false (collapseAux false l) = collapseAux false l ∧
      collapseAux true (collapseAux true l) = collapseAux true l := by
  induction l with
  | nil => exact ⟨rfl, rfl⟩
  | cons c t ih =>
    obtain ⟨ih1, ih2⟩ := ih
    by_cases hc : c = '/'
    · subst hc
      constructor
      · rw [collapseAux_false_slash, collapseAux_false_slash, ih2]
      · rw [collapseAux_true_slash, ih2]
    · constructor
      · rw [collapseAux_nonslash false c t hc, collapseAux_nonslash false c _ hc, ih1]
      · rw [collapseAux_nonslash true c t hc, collapseAux_nonslash true c _ hc, ih1]

/-- `re.sub(r'/+', '/', ·)` is idempotent. -/
theorem collapseSlashes_idem (l : List Char) :
    collapseSlashes (collapseSlashes l) = collapseSlashes l :=
  (collapseAux_idem l).1

/-- After a slash, the next kept character is never a slash. -/
theorem collapseAux_true_head_ne (l : List Char) :
    ∀ c t, collapseAux true l = c :: t → c ≠ '/' := by
  induction l with
  | nil => intro c t h; simp [collapseAux] at h
  | cons d r ih =>
    intro c t h
    by_cases hd : d = '/'
    · subst hd
      rw [collapseAux_true_slash] at h
      exact ih c t h
    · rw [collapseAux_nonslash true d r hd] at h
      injection h with h1 _
      exact h1 ▸ hd

/-- The collapsed list never starts with a double slash. -/
theorem collapse_take2_ne (l : List Char) :
    (collapseAux false l).take 2 ≠ ['/', '/'] := by
  cases l with
  | nil => simp [collapseAux]
  | cons c t =>
    by_cases hc : c = '/'
    · subst hc
      rw [collapseAux_false_slash]
      cases hE : collapseAux true t with
      | nil => simp
      | cons d r =>
        have hd := collapseAux_true_head_ne t d r hE
        intro hcontra
        simp [List.take] at hcontra
        exact hd hcontra
    · rw [collapseAux_nonslash false c t hc]
      intro hcontra
      simp [List.take] at hcontra
      exact hc hcontra.1

/-- Splitting at the last slash commutes with collapsing the left part. -/
theorem collapse_append_slash {a b : List Char} (hb : '/' ∉ b) :
    collapseAux false (a ++ '/' :: b) = collapseAux false (a ++ ['/']) ++ b := by
  have h1 : a ++ '/' :: b = (a ++ ['/']) ++ b := by simp
  have hr : b = [] ∨ ∃ c t, b = c :: t ∧ c ≠ '/' := by
    cases b with
    | nil => exact Or.inl rfl
    | cons c t => exact Or.inr ⟨c, t, rfl, fun hcc => hb (hcc ▸ List.mem_cons_self c t)⟩
  rw [h1, collapseAux_append (a ++ ['/']) false b hr, collapseAux_of_no_slash b false hb]

/-- Collapsing a list ending in a slash, from either state. -/
theorem collapse_concat_slash_aux (a : List Char) :
    ∀ b : Bool, collapseAux b (a ++ ['/']) = [] ∨
      ∃ a', collapseAux b (a ++ ['/']) = a' ++ ['/'] := by
  induction a with
  | nil =>
    intro b
    cases b with
    | false => exact Or.inr ⟨[], rfl⟩
    | true => exact Or.inl rfl
  | cons c a' ih =>
    intro b
    by_cases hc : c = '/'
    · subst hc
      cases b with
      | false =>
        rw [List.cons_append, collapseAux_false_slash]
        rcases ih true with h | ⟨x, hx⟩
        · rw [h]
          exact Or.inr ⟨[], rfl⟩
        · rw [hx]
          exact Or.inr ⟨'/' :: x, rfl⟩
      | true =>
        rw [List.cons_append, collapseAux_true_slash]
        exact ih true
    · rw [List.cons_append, collapseAux_nonslash b c _ hc]
      rcases ih false with h | ⟨x, hx⟩
      · exact absurd h (collapseAux_false_ne_nil (by simp))
      · rw [hx]
        exact Or.inr ⟨c :: x, rfl⟩

/-- Collapsing a list ending in a slash yields a list ending in a slash. -/
theorem collapse_concat_slash (a : List Char) :
    ∃ a', collapseAux false (a ++ ['/']) = a' ++ ['/'] := by
  rcases collapse_concat_slash_aux a false with h | h
  · exact absurd h (collapseAux_false_ne_nil (by simp))
  · exact h

/-- Unique decomposition at the last slash. -/
theorem afterLastSlash_unique {l a b : List Char} (hl : l = a ++ '/' :: b)
    (hb : '/' ∉ b) : b = afterLastSlash l := by
  rw [hl, afterLastSlash_append hb]

/-- Last-occurrence decomposition exists whenever the character occurs. -/
theorem exists_last_occ {x : Char} (l : List Char) :
    x ∈ l → ∃ a b, l = a ++ x :: b ∧ x ∉ b := by
  induction l with
  | nil => intro h; simp at h
  | cons c t ih =>
    intro h
    by_cases hx : x ∈ t
    · obtain ⟨a, b, hab, hb⟩ := ih hx
      exact ⟨c :: a, b, by rw [hab, List.cons_append], hb⟩
    · have hc : c = x := by
        rcases List.mem_cons.mp h with h1 | h1
        · exact h1.symm
        · exact absurd h1 hx
      subst hc
      exact ⟨[], t, rfl, hx⟩

/-- Collapsing the path preserves the `TailNoSemi` invariant. -/
theorem collapse_tailNoSemi {p : List Char} (h : TailNoSemi p) :
    TailNoSemi (collapseSlashes p) := by
  constructor
  · intro hns hsm
    have hs : '/' ∉ p := fun hsp => hns (slash_mem_collapse p hsp)
    exact (h.1 hs) (mem_of_mem_collapseAux p false ';' hsm)
  · intro a b hab hb
    have hslash_cp : '/' ∈ collapseSlashes p := by
      rw [hab]
      exact List.mem_append_right _ (List.mem_cons_self _ _)
    have hslash_p : '/' ∈ p := mem_of_mem_collapseAux p false '/' hslash_cp
    obtain ⟨a3, b3, hp, hb3⟩ := exists_last_occ p hslash_p
    obtain ⟨a4, ha4⟩ := collapse_concat_slash a3
    have hcp2 : collapseSlashes p = a4 ++ '/' :: b3 := by
      show collapseAux false p = _
      rw [hp, collapse_append_slash hb3, ha4, List.append_assoc]
      rfl
    have hbu : b = afterLastSlash (collapseSlashes p) := afterLastSlash_unique hab hb
    have hb3u : b3 = afterLastSlash (collapseSlashes p) := afterLastSlash_unique hcp2 hb3
    rw [hbu, ← hb3u]
    exact h.2 a3 b3 hp hb3

/-- Prepending a slash preserves the `TailNoSemi` invariant. -/
theorem tailNoSemi_cons_slash {p : List Char} (h : TailNoSemi p) :
    TailNoSemi ('/' :: p) := by
  constructor
  · intro hns
    exact absurd (List.mem_cons_self '/' p) hns
  · intro a b hab hb
    cases a with
    | nil =>
      injection hab with _ h2
      exact h2 ▸ h.1 (h2 ▸ hb)
    | cons x a' =>
      injection hab with _ h2
      exact h.2 a' b h2 hb

/-! ### Toolkit: splitparams on structured inputs -/

/-- No slash occurs in `b1 ++ ';' :: b2` when none occurs in the parts. -/
theorem no_slash_semi_append {b1 b2 : List Char} (h1 : '/' ∉ b1) (h2 : '/' ∉ b2) :
    '/' ∉ b1 ++ ';' :: b2 := by
  intro hm
  rcases List.mem_append.mp hm with ha | hb
  · exact h1 ha
  · rcases List.mem_cons.mp hb with hc | hc
    · exact absurd hc (by decide)
    · exact h2 hc

/-- `_splitparams` when no semicolon follows the last slash. -/
theorem splitparams_slash_nosemi {a b : List Char} (hb : '/' ∉ b) (hsb : ';' ∉ b) :
    splitparams (a ++ '/' :: b) = (a ++ '/' :: b, []) := by
  unfold splitparams
  rw [if_pos (List.mem_append_right a (List.mem_cons_self _ _))]
  simp only [afterLastSlash_append hb]
  rw [if_neg hsb]

/-- `_splitparams` splitting at the first semicolon after the last slash. -/
theorem splitparams_slash_semi {a b1 b2 : List Char} (hb1 : '/' ∉ b1) (hb2 : '/' ∉ b2)
    (hsb1 : ';' ∉ b1) :
    splitparams (a ++ '/' :: (b1 ++ ';' :: b2)) = (a ++ '/' :: b1, b2) := by
  have hbns : '/' ∉ b1 ++ ';' :: b2 := no_slash_semi_append hb1 hb2
  unfold splitparams
  rw [if_pos (List.mem_append_right a (List.mem_cons_self _ _))]
  simp only [afterLastSlash_append hbns]
  rw [if_pos (List.mem_append_right b1 (List.mem_cons_self _ _)),
    pySplitFirst_found ';' hsb1]
  have hassoc : a ++ '/' :: (b1 ++ ';' :: b2) = (a ++ ['/']) ++ (b1 ++ ';' :: b2) := by
    simp
  have hlen : (a ++ '/' :: (b1 ++ ';' :: b2)).length - (b1 ++ ';' :: b2).length
      = (a ++ ['/']).length := by
    simp only [List.length_append, List.length_cons, List.length_singleton,
      List.length_nil]
    omega
  rw [hlen]
  conv_lhs => rw [hassoc]
  rw [List.take_left' rfl]
  simp

/-- `_splitparams` on a slash-free path with a semicolon. -/
theorem splitparams_noslash_semi {b1 b2 : List Char} (h1 : '/' ∉ b1) (h2 : '/' ∉ b2)
    (hsb1 : ';' ∉ b1) :
    splitparams (b1 ++ ';' :: b2) = (b1, b2) := by
  have hns : '/' ∉ b1 ++ ';' :: b2 := no_slash_semi_append h1 h2
  unfold splitparams
  rw [if_neg hns, if_pos (List.mem_append_right b1 (List.mem_cons_self _ _))]
  exact pySplitFirst_found ';' hsb1

/-- Inversion for `_splitparams` under the caller's guard that a semicolon is
present: either nothing is split (and the path satisfies `TailNoSemi`), or the
path splits as `p ++ ';' :: q` with slash-free params and `TailNoSemi p`. -/
theorem splitparams_inv (l : List Char) (hsemi : ';' ∈ l) :
    (splitparams l = (l, []) ∧ TailNoSemi l) ∨
      ∃ p q, splitparams l = (p, q) ∧ l = p ++ ';' :: q ∧ '/' ∉ q ∧ TailNoSemi p := by
  by_cases hslash : '/' ∈ l
  · obtain ⟨a, b, hl, hbns⟩ := exists_last_occ l hslash
    by_cases hsb : ';' ∈ b
    · right
      rcases pySplitFirst_inv ';' b with ⟨_, hx⟩ | ⟨b1, b2, hb12, hsb1, _⟩
      · exact absurd hsb hx
      · have hb1ns : '/' ∉ b1 := fun hm => hbns (hb12 ▸ List.mem_append_left _ hm)
        have hb2ns : '/' ∉ b2 := fun hm =>
          hbns (hb12 ▸ List.mem_append_right _ (List.mem_cons_of_mem _ hm))
        refine ⟨a ++ '/' :: b1, b2, ?_, ?_, hb2ns, ?_⟩
        · rw [hl, hb12]
          exact splitparams_slash_semi hb1ns hb2ns hsb1
        · rw [hl, hb12]
          simp
        · constructor
          · intro hns
            exact absurd (List.mem_append_right a (List.mem_cons_self _ _)) hns
          · intro a' b' hab' hb'
            have hb'u : b' = afterLastSlash (a ++ '/' :: b1) :=
              afterLastSlash_unique hab' hb'
            have hb1u : b1 = afterLastSlash (a ++ '/' :: b1) :=
              afterLastSlash_unique rfl hb1ns
            rw [hb'u, ← hb1u]
            exact hsb1
    · left
      constructor
      · rw [hl]
        exact splitparams_slash_nosemi hbns hsb
      · constructor
        · intro hns
          exact absurd hslash hns
        · intro a' b' hab' hb'
          have hb'u : b' = afterLastSlash l := afterLastSlash_unique hab' hb'
          have hbu : b = afterLastSlash l := afterLastSlash_unique hl hbns
          rw [hb'u, ← hbu]
          exact hsb
  · right
    rcases pySplitFirst_inv ';' l with ⟨_, hx⟩ | ⟨b1, b2, hb12, hsb1, _⟩
    · exact absurd hsemi hx
    · have hb1ns : '/' ∉ b1 := fun hm => hslash (hb12 ▸ List.mem_append_left _ hm)
      have hb2ns : '/' ∉ b2 := fun hm =>
        hslash (hb12 ▸ List.mem_append_right _ (List.mem_cons_of_mem _ hm))
      refine ⟨b1, b2, ?_, hb12, hb2ns, ?_⟩
      · rw [hb12]
        exact splitparams_noslash_semi hb1ns hb2ns hsb1
      · exact ⟨fun _ => hsb1, fun a' b' hab' _ =>
          absurd (hab' ▸ List.mem_append_right a' (List.mem_cons_self _ _)) hb1ns⟩

/-! ### Toolkit: parse invariants -/

/-- UInt32 order reflects the natural-number order of the values. -/
theorem uint32_le_iff (a b : UInt32) : a ≤ b ↔ a.toNat ≤ b.toNat :=
  Iff.rfl

/-- ASCII-letter recognition in terms of code points. -/
theorem char_isAlpha_iff (c : Char) :
    c.isAlpha = true ↔
      (65 ≤ c.toNat ∧ c.toNat ≤ 90) ∨ (97 ≤ c.toNat ∧ c.toNat ≤ 122) := by
  unfold Char.isAlpha Char.isUpper Char.isLower
  simp only [Bool.or_eq_true, Bool.and_eq_true, decide_eq_true_eq, ge_iff_le]
  constructor
  · rintro (⟨h1, h2⟩ | ⟨h1, h2⟩)
    · exact Or.inl ⟨(uint32_le_iff _ _).mp h1, (uint32_le_iff _ _).mp h2⟩
    · exact Or.inr ⟨(uint32_le_iff _ _).mp h1, (uint32_le_iff _ _).mp h2⟩
  · rintro (⟨h1, h2⟩ | ⟨h1, h2⟩)
    · exact Or.inl ⟨(uint32_le_iff _ _).mpr h1, (uint32_le_iff _ _).mpr h2⟩
    · exact Or.inr ⟨(uint32_le_iff _ _).mpr h1, (uint32_le_iff _ _).mpr h2⟩

/-- Lowering preserves ASCII letters. -/
theorem isAlpha_toLower {c : Char} (h : c.isAlpha = true) :
    (Char.toLower c).isAlpha = true := by
  rw [char_isAlpha_iff] at h ⊢
  rw [toLower_toNat]
  rcases h with h | h
  · rw [if_pos h]
    omega
  · rw [if_neg (by omega)]
    omega

/-- Lowering a string preserves its leading ASCII letter. -/
theorem headAlpha_pyLower {l : List Char} (h : headAlpha l = true) :
    headAlpha (pyLower l) = true := by
  cases l with
  | nil => simp [headAlpha] at h
  | cons c t => exact isAlpha_toLower h

/-- Scheme characters stay scheme characters when lowered. -/
theorem scheme_lower_mem : ∀ c ∈ schemeChars, Char.toLower c ∈ schemeChars := by
  decide

/-- A string of already-lowered characters is fixed by `str.lower`. -/
theorem pyLower_eq_self {l : List Char} (h : ∀ c ∈ l, Char.toLower c = c) :
    pyLower l = l := by
  unfold pyLower
  calc l.map Char.toLower = l.map id := List.map_congr_left h
  _ = l := List.map_id l

/-- The model's `_checknetloc` never raises. -/
theorem checknetloc_true (n : List Char) : checknetloc n = true := by
  unfold checknetloc nfkcNormalize
  split
  · rfl
  · simp

/-- `NoSchemeAt` restricts to a left part of an append. -/
theorem noSchemeAt_of_append {p t : List Char} (h : NoSchemeAt (p ++ t)) :
    NoSchemeAt p := by
  intro pre rest heq hall halpha
  exact h pre (rest ++ t) (by rw [heq]; simp) hall halpha

/-- A list that is empty or starts with a slash admits no scheme. -/
theorem noSchemeAt_of_head_slash {l : List Char}
    (h : l = [] ∨ ∃ t, l = '/' :: t) : NoSchemeAt l := by
  intro pre rest heq hall halpha
  rcases h with rfl | ⟨t, rfl⟩
  · exact List.cons_ne_nil ':' rest (List.append_eq_nil.mp heq.symm).2
  · cases pre with
    | nil => simp [headAlpha] at halpha
    | cons c p =>
      rw [List.cons_append] at heq
      injection heq with h1 _
      have : '/' ∈ schemeChars := h1 ▸ hall c (List.mem_cons_self c p)
      revert this
      decide

/-- A path with no semicolon satisfies `TailNoSemi`. -/
theorem tailNoSemi_of_no_semi {l : List Char} (h : ';' ∉ l) : TailNoSemi l :=
  ⟨fun _ => h, fun a _b hab _ hm =>
    h (hab ▸ List.mem_append_right a (List.mem_cons_of_mem '/' hm))⟩

/-- Decomposition facts of the fragment-then-query stage. -/
theorem fragquery_inv (u3 : List Char) :
    (∃ tail, u3 = (querySplit (fragSplit u3).1).1 ++ tail)
  ∧ ('?' ∉ (querySplit (fragSplit u3).1).1)
  ∧ ('#' ∉ (querySplit (fragSplit u3).1).1)
  ∧ ('#' ∉ (querySplit (fragSplit u3).1).2)
  ∧ (∀ c ∈ (querySplit (fragSplit u3).1).1, c ∈ u3)
  ∧ (∀ c ∈ (querySplit (fragSplit u3).1).2, c ∈ u3)
  ∧ (∀ c ∈ (fragSplit u3).2, c ∈ u3) := by
  rcases fragSplit_inv u3 with ⟨hf, hfn⟩ | ⟨a, f, hu3, hfa, hf⟩
  · rw [hf]
    rcases querySplit_inv u3 with ⟨hq, hqn⟩ | ⟨p, q, hu3q, hqp, hq⟩
    · rw [hq]
      exact ⟨⟨[], by simp⟩, hqn, hfn, by simp, fun c hc => hc, by simp, by simp⟩
    · rw [hq]
      have hpsub : ∀ c ∈ p, c ∈ u3 := fun c hc => hu3q ▸ List.mem_append_left _ hc
      have hqsub : ∀ c ∈ q, c ∈ u3 := fun c hc =>
        hu3q ▸ List.mem_append_right _ (List.mem_cons_of_mem _ hc)
      exact ⟨⟨'?' :: q, hu3q⟩, hqp, fun hm => hfn (hpsub '#' hm),
        fun hm => hfn (hqsub '#' hm), hpsub, hqsub, by simp⟩
  · rw [hf]
    have hasub : ∀ c ∈ a, c ∈ u3 := fun c hc => hu3 ▸ List.mem_append_left _ hc
    have hfsub : ∀ c ∈ f, c ∈ u3 := fun c hc =>
      hu3 ▸ List.mem_append_right _ (List.mem_cons_of_mem _ hc)
    rcases querySplit_inv a with ⟨hq, hqn⟩ | ⟨p, q, haq, hqp, hq⟩
    · rw [hq]
      exact ⟨⟨'#' :: f, hu3⟩, hqn, hfa, fun hm => by simp at hm, hasub,
        fun c hm => by simp at hm, hfsub⟩
    · rw [hq]
      have hpsub : ∀ c ∈ p, c ∈ a := fun c hc => haq ▸ List.mem_append_left _ hc
      have hqsub : ∀ c ∈ q, c ∈ a := fun c hc =>
        haq ▸ List.mem_append_right _ (List.mem_cons_of_mem _ hc)
      refine ⟨⟨'?' :: (q ++ '#' :: f), ?_⟩, hqp, fun hm => hfa (hpsub '#' hm),
        fun hm => hfa (hqsub '#' hm), fun c hc => hasub c (hpsub c hc),
        fun c hc => hasub c (hqsub c hc), hfsub⟩
      rw [hu3, haq]
      simp

/-- Inversion of `urlsplit`: the component facts of every successful parse. -/
theorem urlsplit_inv {url : List Char} {s : SplitResult} (h : urlsplit url = some s) :
    (∀ c ∈ s.scheme, c ∈ schemeChars ∧ Char.toLower c = c)
  ∧ (s.scheme = [] ∨ headAlpha s.scheme = true)
  ∧ (∀ c ∈ s.netloc, isNetlocEnd c = false ∧ isUnsafeChar c = false)
  ∧ ('[' ∈ s.netloc ↔ ']' ∈ s.netloc)
  ∧ (∀ c ∈ s.path, c ≠ '?' ∧ c ≠ '#' ∧ isUnsafeChar c = false)
  ∧ (∀ c ∈ s.query, c ≠ '#' ∧ isUnsafeChar c = false)
  ∧ (∀ c ∈ s.fragment, isUnsafeChar c = false)
  ∧ (s.scheme = [] → NoSchemeAt s.path) := by
  cases hns : netlocSplit (schemeSplit (stripUnsafe url)).2 with
  | none =>
    have hnone : urlsplit url = none := by
      simp only [urlsplit, hns]
    rw [hnone] at h
    exact absurd h (by simp)
  | some nu =>
    obtain ⟨n, u3⟩ := nu
    have hcompute : urlsplit url =
        some ⟨(schemeSplit (stripUnsafe url)).1, n,
          (querySplit (fragSplit u3).1).1, (querySplit (fragSplit u3).1).2,
          (fragSplit u3).2⟩ := by
      simp only [urlsplit, hns, checknetloc_true, if_true]
    rw [hcompute] at h
    have hs := (Option.some.inj h).symm
    subst hs
    have hu1 : NoUnsafe (stripUnsafe url) := noUnsafe_stripUnsafe url
    have hscheme : (∀ c ∈ (schemeSplit (stripUnsafe url)).1,
        c ∈ schemeChars ∧ Char.toLower c = c)
      ∧ ((schemeSplit (stripUnsafe url)).1 = [] ∨
          headAlpha (schemeSplit (stripUnsafe url)).1 = true)
      ∧ (∀ c ∈ (schemeSplit (stripUnsafe url)).2, isUnsafeChar c = false)
      ∧ ((schemeSplit (stripUnsafe url)).1 = [] →
          NoSchemeAt (schemeSplit (stripUnsafe url)).2) := by
      rcases schemeSplit_cases (stripUnsafe url) with hc | ⟨pre, rest, hl, _, halpha, hall, hc⟩
      · rw [hc]
        exact ⟨by simp, Or.inl rfl, fun c hc2 => hu1 c hc2,
          fun _ => noSchemeAt_of_split_nil (by rw [hc])⟩
      · rw [hc]
        refine ⟨?_, Or.inr (headAlpha_pyLower halpha), ?_, ?_⟩
        · intro c hcm
          obtain ⟨c', hc', rfl⟩ := List.mem_map.mp hcm
          exact ⟨scheme_lower_mem c' (hall c' hc'), toLower_idem c'⟩
        · intro c hcm
          exact hu1 c (hl ▸ List.mem_append_right _ (List.mem_cons_of_mem _ hcm))
        · intro hnil
          exfalso
          have hne : pre ≠ [] := by
            intro hp
            rw [hp] at halpha
            simp [headAlpha] at halpha
          exact hne (by simpa [pyLower] using hnil)
    obtain ⟨hs_ok, hs_head, hu2_unsafe, hs_nos⟩ := hscheme
    obtain ⟨⟨tail, htail⟩, hp_noq, hp_nof, hq_nof, hp_sub, hq_sub, hf_sub⟩ :=
      fragquery_inv u3
    rcases netlocSplit_inv hns with ⟨_, hn_nil, hu3_eq⟩ |
        ⟨hu2_eq, hn_ok, hn_br, hu3_head⟩
    · -- no leading double slash: netloc empty, u3 = u2
      have hu3_unsafe : ∀ c ∈ u3, isUnsafeChar c = false := by
        rw [hu3_eq]; exact hu2_unsafe
      refine ⟨hs_ok, hs_head, ?_, ?_, ?_, ?_, ?_, ?_⟩
      · rw [hn_nil]; simp
      · rw [hn_nil]; simp
      · intro c hc
        refine ⟨fun hcq => hp_noq (hcq ▸ hc), fun hcf => hp_nof (hcf ▸ hc),
          hu3_unsafe c (hp_sub c hc)⟩
      · intro c hc
        exact ⟨fun hcf => hq_nof (hcf ▸ hc), hu3_unsafe c (hq_sub c hc)⟩
      · intro c hc
        exact hu3_unsafe c (hf_sub c hc)
      · intro hnil
        have : NoSchemeAt u3 := hu3_eq ▸ hs_nos hnil
        exact noSchemeAt_of_append (htail ▸ this)
    · -- leading double slash: u2 = '/' :: '/' :: (n ++ u3)
      have hu3_unsafe : ∀ c ∈ u3, isUnsafeChar c = false := fun c hc =>
        hu2_unsafe c (hu2_eq ▸ List.mem_cons_of_mem _ (List.mem_cons_of_mem _
          (List.mem_append_right _ hc)))
      have hn_unsafe : ∀ c ∈ n, isUnsafeChar c = false := fun c hc =>
        hu2_unsafe c (hu2_eq ▸ List.mem_cons_of_mem _ (List.mem_cons_of_mem _
          (List.mem_append_left _ hc)))
      refine ⟨hs_ok, hs_head, fun c hc => ⟨hn_ok c hc, hn_unsafe c hc⟩, hn_br,
        ?_, ?_, ?_, ?_⟩
      · intro c hc
        refine ⟨fun hcq => hp_noq (hcq ▸ hc), fun hcf => hp_nof (hcf ▸ hc),
          hu3_unsafe c (hp_sub c hc)⟩
      · intro c hc
        exact ⟨fun hcf => hq_nof (hcf ▸ hc), hu3_unsafe c (hq_sub c hc)⟩
      · intro c hc
        exact hu3_unsafe c (hf_sub c hc)
      · intro _
        apply noSchemeAt_of_head_slash
        cases hp : (querySplit (fragSplit u3).1).1 with
        | nil => exact Or.inl rfl
        | cons d t =>
          right
          refine ⟨t, ?_⟩
          -- the head of the path is the head of u3, which is a delimiter
          have hd_mem_head : u3 = d :: (t ++ tail) := by
            rw [htail, hp]
            simp
          have hdel := hu3_head d (t ++ tail) hd_mem_head
          have hd_slash : d = '/' := by
            rcases (isNetlocEnd_eq_true_iff d).mp hdel with h47 | h63 | h35
            · exact @char_toNat_inj d '/' h47
            · exfalso
              have : d ≠ '?' := fun hdq => hp_noq (hdq ▸ (hp ▸ List.mem_cons_self d t))
              exact this (@char_toNat_inj d '?' h63)
            · exfalso
              have : d ≠ '#' := fun hdq => hp_nof (hdq ▸ (hp ▸ List.mem_cons_self d t))
              exact this (@char_toNat_inj d '#' h35)
          rw [hd_slash]

/-- Every successful `urlparse` satisfies the parse invariants. -/
theorem urlparse_inv {url : List Char} {r : ParseResult} (h : urlparse url = some r) :
    ParseInv r := by
  cases hus : urlsplit url with
  | none =>
    have hnone : urlparse url = none := by simp only [urlparse, hus]
    rw [hnone] at h
    exact absurd h (by simp)
  | some s =>
    obtain ⟨hs_ok, hs_head, hn_ok, hn_br, hp_ok, hq_ok, hf_ok, hnos⟩ := urlsplit_inv hus
    by_cases hguard : s.scheme ∈ usesParams ∧ ';' ∈ s.path
    · have hcompute : urlparse url = some ⟨s.scheme, s.netloc,
          (splitparams s.path).1, (splitparams s.path).2, s.query, s.fragment⟩ := by
        simp only [urlparse, hus]
        rw [if_pos hguard]
      rw [hcompute] at h
      obtain rfl := (Option.some.inj h).symm
      rcases splitparams_inv s.path hguard.2 with ⟨heq, htns⟩ |
          ⟨p, q, heq, hdecomp, hqns, htns⟩
      · refine ⟨?_, hs_head, hn_ok, hn_br, ?_, ?_, ?_, ?_, hq_ok, hf_ok, ?_⟩
        · exact hs_ok
        · rw [heq]
          exact hp_ok
        · rw [heq]
          intro c hc
          simp at hc
        · rw [heq]
          intro hne
          exact absurd rfl hne
        · intro _
          rw [heq]
          exact htns
        · rw [heq]
          intro hnil
          exact hnos hnil
      · rw [heq]
        have hpsub : ∀ c ∈ p, c ∈ s.path := fun c hc =>
          hdecomp ▸ List.mem_append_left _ hc
        have hqsub : ∀ c ∈ q, c ∈ s.path := fun c hc =>
          hdecomp ▸ List.mem_append_right _ (List.mem_cons_of_mem _ hc)
        refine ⟨hs_ok, hs_head, hn_ok, hn_br, ?_, ?_, ?_, ?_, hq_ok, hf_ok, ?_⟩
        · intro c hc
          exact hp_ok c (hpsub c hc)
        · intro c hc
          obtain ⟨hc1, hc2, hc3⟩ := hp_ok c (hqsub c hc)
          exact ⟨fun hcs => hqns (hcs ▸ hc), hc1, hc2, hc3⟩
        · intro _
          exact hguard.1
        · intro _
          exact htns
        · intro hnil
          have := hnos hnil
          rw [hdecomp] at this
          exact noSchemeAt_of_append this
    · have hcompute : urlparse url = some ⟨s.scheme, s.netloc,
          s.path, [], s.query, s.fragment⟩ := by
        simp only [urlparse, hus]
        rw [if_neg hguard]
      rw [hcompute] at h
      obtain rfl := (Option.some.inj h).symm
      refine ⟨hs_ok, hs_head, hn_ok, hn_br, hp_ok, ?_, ?_, ?_, hq_ok, hf_ok, hnos⟩
      · intro c hc
        simp at hc
      · intro hne
        exact absurd rfl hne
      · intro hsch
        by_cases hsemi : ';' ∈ s.path
        · exact absurd ⟨hsch, hsemi⟩ hguard
        · exact tailNoSemi_of_no_semi hsemi

/-- Collapsing slashes cannot create a scheme decomposition. -/
theorem noSchemeAt_collapse {p : List Char} (h : NoSchemeAt p) :
    NoSchemeAt (collapseSlashes p) := by
  intro pre rest heq hall halpha
  have hns : '/' ∉ pre ++ [':'] := by
    intro hm
    rcases List.mem_append.mp hm with hm1 | hm1
    · have := hall '/' hm1
      revert this
      decide
    · rcases List.mem_singleton.mp hm1 with h
      exact absurd h (by decide)
  have heq2 : collapseAux false p = (pre ++ [':']) ++ rest := by
    show collapseSlashes p = _
    rw [heq]
    simp
  obtain ⟨rest2, hrest2⟩ := collapse_pre_rev (pre ++ [':']) p rest hns heq2
  rw [List.append_assoc] at hrest2
  exact h pre rest2 (by simpa using hrest2) hall halpha

/-- Normalizing the components of a parsed URL preserves the parse invariants
and reaches the lower/collapse fixed points. -/
theorem normInv_of_parseInv {r : ParseResult} (h : ParseInv r) :
    NormInv (normComponents r) := by
  obtain ⟨hs_ok, hs_head, hn_ok, hn_br, hp_ok, hpar_ok, hpar_s, hpar_t, hq_ok, hf_ok, hnos⟩ := h
  have hbr1 : ¬(97 ≤ ('[').toNat ∧ ('[').toNat ≤ 122) := by decide
  have hbr2 : ¬(65 ≤ ('[').toNat ∧ ('[').toNat ≤ 90) := by decide
  have hbr3 : ¬(97 ≤ (']').toNat ∧ (']').toNat ≤ 122) := by decide
  have hbr4 : ¬(65 ≤ (']').toNat ∧ (']').toNat ≤ 90) := by decide
  refine ⟨⟨hs_ok, hs_head, ?_, ?_, ?_, hpar_ok, hpar_s, ?_, hq_ok, hf_ok, ?_⟩, ?_, ?_⟩
  · intro c hc
    obtain ⟨c', hc', rfl⟩ := List.mem_map.mp hc
    obtain ⟨h1, h2⟩ := hn_ok c' hc'
    exact ⟨isNetlocEnd_toLower_false h1, isUnsafeChar_toLower_false h2⟩
  · show '[' ∈ pyLower r.netloc ↔ ']' ∈ pyLower r.netloc
    rw [mem_pyLower_special hbr1 hbr2, mem_pyLower_special hbr3 hbr4]
    exact hn_br
  · intro c hc
    exact hp_ok c (mem_of_mem_collapseAux r.path false c hc)
  · intro hup
    exact collapse_tailNoSemi (hpar_t hup)
  · intro hnil
    exact noSchemeAt_collapse (hnos hnil)
  · exact pyLower_idem r.netloc
  · exact collapseSlashes_idem r.path

/-! ### Toolkit: facts for the reassemble-and-reparse round trip -/

/-- Appending a tail headed by a non-scheme, non-colon character preserves the
absence of a scheme decomposition. -/
theorem noSchemeAt_extend {P T : List Char}
    (hT : T = [] ∨ ∃ c t, T = c :: t ∧ c ∉ schemeChars ∧ c ≠ ':')
    (hP : NoSchemeAt P) : NoSchemeAt (P ++ T) := by
  intro pre rest heq hall halpha
  have heq' : pre ++ ':' :: rest = P ++ T := heq.symm
  rcases List.append_eq_append_iff.mp heq' with ⟨a', hPa, hra⟩ | ⟨c', hpc, hTc⟩
  · cases a' with
    | nil =>
      rcases hT with rfl | ⟨c, t, hTct, _, hcne⟩
      · rw [List.append_nil] at hra
        exact List.cons_ne_nil ':' rest (by rw [hra])
      · rw [List.nil_append] at hra
        rw [hTct] at hra
        injection hra with h1 _
        exact hcne h1.symm
    | cons x a'' =>
      injection hra with h1 h2
      exact hP pre a'' (by rw [hPa, ← h1]) hall halpha
  · cases c' with
    | nil =>
      rcases hT with rfl | ⟨c, t, hTct, _, hcne⟩
      · exact absurd (by simpa using hTc.symm) (List.cons_ne_nil ':' rest)
      · rw [List.nil_append] at hTc
        rw [hTct] at hTc
        injection hTc with h1 _
        exact hcne h1
    | cons d c'' =>
      rcases hT with rfl | ⟨c, t, hTct, hcmem, _⟩
      · exact absurd hTc.symm (List.cons_ne_nil d (c'' ++ ':' :: rest))
      · rw [hTct] at hTc
        injection hTc with h1 _
        have hd_pre : d ∈ pre := by
          rw [hpc]
          exact List.mem_append_right P (List.mem_cons_self d c'')
        exact hcmem (h1 ▸ hall d hd_pre)

/-- An append cannot start with a double slash when neither part allows it. -/
theorem take2_append_ne {u0 T : List Char} (h1 : u0.take 2 ≠ ['/', '/'])
    (h2 : T = [] ∨ ∃ c t, T = c :: t ∧ c ≠ '/') :
    (u0 ++ T).take 2 ≠ ['/', '/'] := by
  cases u0 with
  | nil =>
    rcases h2 with rfl | ⟨c, t, rfl, hc⟩
    · simp
    · intro hcontra
      rw [List.nil_append] at hcontra
      injection hcontra with ha _
      exact hc ha
  | cons a u =>
    cases u with
    | nil =>
      rcases h2 with rfl | ⟨c, t, rfl, hc⟩
      · simp
      · intro hcontra
        simp [List.take] at hcontra
        exact hc hcontra.2
    | cons b u' =>
      intro hcontra
      simp [List.take] at hcontra
      exact h1 (by
        rw [show List.take 2 (a :: b :: u') = [a, b] from rfl, hcontra.1, hcontra.2])

/-- The path-plus-params string is the path followed by the optional params. -/
theorem joinParams_eq (r : ParseResult) :
    joinParams r = r.path ++ (if r.params ≠ [] then ';' :: r.params else []) := by
  unfold joinParams
  split
  · rfl
  · simp

/-- The path-plus-params string of a slash-collapsed path never starts `//`. -/
theorem joinParams_take2_ne {r : ParseResult} (hfix : collapseSlashes r.path = r.path) :
    (joinParams r).take 2 ≠ ['/', '/'] := by
  have hP : r.path.take 2 ≠ ['/', '/'] := by
    have h := collapse_take2_ne r.path
    rwa [show collapseAux false r.path = collapseSlashes r.path from rfl, hfix] at h
  rw [joinParams_eq]
  apply take2_append_ne hP
  split
  · exact Or.inr ⟨';', r.params, rfl, by decide⟩
  · exact Or.inl rfl

/-- The slash-ensured path is empty or starts with a slash. -/
theorem ensureSlash_head (u0 : List Char) :
    ensureSlash u0 = [] ∨ ∃ t, ensureSlash u0 = '/' :: t := by
  unfold ensureSlash
  split
  · exact Or.inr ⟨u0, rfl⟩
  · rename_i hcond
    rw [not_and_or] at hcond
    rcases hcond with hnil | htake
    · rw [not_not] at hnil
      exact Or.inl hnil
    · rw [not_not] at htake
      cases u0 with
      | nil => exact Or.inl rfl
      | cons c t =>
        right
        refine ⟨t, ?_⟩
        have : c = '/' := by
          have h1 : (c :: t).take 1 = [c] := rfl
          rw [h1] at htake
          injection htake
        rw [this]

/-- `urlunsplit` written as a flat append of its four optional regions. -/
theorem urlunsplit_shape (s n u0 q f : List Char) :
    urlunsplit s n u0 q f =
      (if s ≠ [] then s ++ [':'] else []) ++
      ((if n ≠ [] ∨ (s ≠ [] ∧ s ∈ usesNetloc ∧ u0.take 2 ≠ ['/', '/']) then
          '/' :: '/' :: (n ++ ensureSlash u0) else u0) ++
        ((if q ≠ [] then '?' :: q else []) ++ (if f ≠ [] then '#' :: f else []))) := by
  unfold urlunsplit
  by_cases hc : n ≠ [] ∨ (s ≠ [] ∧ s ∈ usesNetloc ∧ u0.take 2 ≠ ['/', '/'])
  all_goals by_cases hs : s ≠ []
  all_goals by_cases hq : q ≠ []
  all_goals by_cases hf : f ≠ []
  all_goals simp [hc, hs, hq, hf]

/-- Characters of the slash-ensured path are the slash or path characters. -/
theorem mem_ensureSlash {c : Char} {u0 : List Char} (h : c ∈ ensureSlash u0) :
    c = '/' ∨ c ∈ u0 := by
  unfold ensureSlash at h
  split at h
  · rcases List.mem_cons.mp h with h1 | h1
    · exact Or.inl h1
    · exact Or.inr h1
  · exact Or.inr h

/-- The fragment and query splits on a reassembled body. -/
theorem fragquery_of_shape {PP q f : List Char} (hPPq : '?' ∉ PP) (hPPf : '#' ∉ PP)
    (hqf : '#' ∉ q) :
    fragSplit (PP ++ ((if q ≠ [] then '?' :: q else []) ++
        (if f ≠ [] then '#' :: f else [])))
      = (PP ++ (if q ≠ [] then '?' :: q else []), f)
  ∧ querySplit (PP ++ (if q ≠ [] then '?' :: q else [])) = (PP, q) := by
  have hnof : '#' ∉ PP ++ (if q ≠ [] then '?' :: q else []) := by
    intro hm
    rcases List.mem_append.mp hm with hm | hm
    · exact hPPf hm
    · revert hm
      split
      · intro hm
        rcases List.mem_cons.mp hm with hm | hm
        · exact absurd hm (by decide)
        · exact hqf hm
      · intro hm
        simp at hm
  constructor
  · by_cases hf : f ≠ []
    · rw [if_pos hf]
      have harg : PP ++ ((if q ≠ [] then '?' :: q else []) ++ '#' :: f)
          = (PP ++ (if q ≠ [] then '?' :: q else [])) ++ '#' :: f := by simp
      rw [harg]
      exact fragSplit_found hnof
    · rw [not_not] at hf
      subst hf
      rw [if_neg (fun hcc => hcc rfl : ¬(([] : List Char) ≠ [])), List.append_nil]
      exact fragSplit_absent hnof
  · by_cases hq : q ≠ []
    · rw [if_pos hq]
      exact querySplit_found hPPq
    · rw [not_not] at hq
      subst hq
      rw [if_neg (fun hcc => hcc rfl : ¬(([] : List Char) ≠ [])), List.append_nil]
      exact querySplit_absent hPPq

/-- Parsing the reassembly of a normalized parse result: the scheme, netloc,
query and fragment come back unchanged, and the path comes back as the
(possibly slash-ensured) path-plus-params string. -/
theorem urlsplit_unpAll {r : ParseResult} (h : NormInv r) :
    urlsplit (unpAll r) = some ⟨r.scheme, r.netloc,
      (if r.netloc ≠ [] ∨ (r.scheme ≠ [] ∧ r.scheme ∈ usesNetloc ∧
          (joinParams r).take 2 ≠ ['/', '/'])
        then ensureSlash (joinParams r) else joinParams r),
      r.query, r.fragment⟩ := by
  obtain ⟨⟨hs_ok, hs_head, hn_ok, hn_br, hp_ok, hpar_ok, hpar_s, hpar_t, hq_ok, hf_ok,
    hnos⟩, hn_fix, hp_fix⟩ := h
  -- character facts about the path-plus-params string
  have hjp_mem : ∀ c ∈ joinParams r, c ∈ r.path ∨ c = ';' ∨ c ∈ r.params := by
    intro c hc
    rw [joinParams_eq] at hc
    rcases List.mem_append.mp hc with hm | hm
    · exact Or.inl hm
    · revert hm
      split
      · intro hm
        rcases List.mem_cons.mp hm with hm | hm
        · exact Or.inr (Or.inl hm)
        · exact Or.inr (Or.inr hm)
      · intro hm
        simp at hm
  have hjp_noq : '?' ∉ joinParams r := by
    intro hm
    rcases hjp_mem '?' hm with hm | hm | hm
    · exact (hp_ok '?' hm).1 rfl
    · exact absurd hm (by decide)
    · exact (hpar_ok '?' hm).2.1 rfl
  have hjp_nof : '#' ∉ joinParams r := by
    intro hm
    rcases hjp_mem '#' hm with hm | hm | hm
    · exact (hp_ok '#' hm).2.1 rfl
    · exact absurd hm (by decide)
    · exact (hpar_ok '#' hm).2.2.1 rfl
  have hjp_unsafe : ∀ c ∈ joinParams r, isUnsafeChar c = false := by
    intro c hc
    rcases hjp_mem c hc with hm | hm | hm
    · exact (hp_ok c hm).2.2
    · rw [hm]
      rfl
    · exact (hpar_ok c hm).2.2.2
  have hu0take : (joinParams r).take 2 ≠ ['/', '/'] := joinParams_take2_ne hp_fix
  -- the scheme block
  have hcolon : ':' ∉ r.scheme := by
    intro hm
    have := (hs_ok ':' hm).1
    revert this
    decide
  have hs_lower : pyLower r.scheme = r.scheme :=
    pyLower_eq_self fun c hc => (hs_ok c hc).2
  -- the optional query/fragment region
  have hQF : (if r.query ≠ [] then '?' :: r.query else []) ++
      (if r.fragment ≠ [] then '#' :: r.fragment else []) = [] ∨
      ∃ c t, (if r.query ≠ [] then '?' :: r.query else []) ++
        (if r.fragment ≠ [] then '#' :: r.fragment else []) = c :: t ∧
        (c = '?' ∨ c = '#') := by
    by_cases hq : r.query ≠ []
    · rw [if_pos hq]
      exact Or.inr ⟨'?', r.query ++ (if r.fragment ≠ [] then '#' :: r.fragment else []),
        rfl, Or.inl rfl⟩
    · rw [if_neg hq, List.nil_append]
      by_cases hf : r.fragment ≠ []
      · rw [if_pos hf]
        exact Or.inr ⟨'#', r.fragment, rfl, Or.inr rfl⟩
      · rw [if_neg hf]
        exact Or.inl rfl
  -- the reassembled string, in flat form
  have hy : unpAll r =
      (if r.scheme ≠ [] then r.scheme ++ [':'] else []) ++
      ((if r.netloc ≠ [] ∨ (r.scheme ≠ [] ∧ r.scheme ∈ usesNetloc ∧
            (joinParams r).take 2 ≠ ['/', '/']) then
          '/' :: '/' :: (r.netloc ++ ensureSlash (joinParams r)) else joinParams r) ++
        ((if r.query ≠ [] then '?' :: r.query else []) ++
          (if r.fragment ≠ [] then '#' :: r.fragment else []))) := by
    show urlunsplit r.scheme r.netloc (joinParams r) r.query r.fragment = _
    exact urlunsplit_shape r.scheme r.netloc (joinParams r) r.query r.fragment
  by_cases hcond : r.netloc ≠ [] ∨ (r.scheme ≠ [] ∧ r.scheme ∈ usesNetloc ∧
      (joinParams r).take 2 ≠ ['/', '/'])
  · -- with a netloc region
    rw [if_pos hcond] at hy
    have hE_noq : '?' ∉ ensureSlash (joinParams r) := by
      intro hm
      rcases mem_ensureSlash hm with hm | hm
      · exact absurd hm (by decide)
      · exact hjp_noq hm
    have hE_nof : '#' ∉ ensureSlash (joinParams r) := by
      intro hm
      rcases mem_ensureSlash hm with hm | hm
      · exact absurd hm (by decide)
      · exact hjp_nof hm
    have hE_unsafe : ∀ c ∈ ensureSlash (joinParams r), isUnsafeChar c = false := by
      intro c hc
      rcases mem_ensureSlash hc with hm | hm
      · rw [hm]
        rfl
      · exact hjp_unsafe c hm
    -- the body after the scheme
    have hbody : (('/' :: '/' :: (r.netloc ++ ensureSlash (joinParams r))) ++
        ((if r.query ≠ [] then '?' :: r.query else []) ++
          (if r.fragment ≠ [] then '#' :: r.fragment else []))) =
        '/' :: '/' :: (r.netloc ++ (ensureSlash (joinParams r) ++
          ((if r.query ≠ [] then '?' :: r.query else []) ++
            (if r.fragment ≠ [] then '#' :: r.fragment else [])))) := by
      simp
    have hnounsafe : NoUnsafe (unpAll r) := by
      rw [hy]
      intro c hc
      rcases List.mem_append.mp hc with hm | hm
      · revert hm
        split
        · intro hm
          rcases List.mem_append.mp hm with hm | hm
          · have := (hs_ok c hm).1
            revert this
            have : ∀ d ∈ schemeChars, isUnsafeChar d = false := by decide
            exact fun hmem => this c hmem
          · rcases List.mem_singleton.mp hm with rfl
            rfl
        · intro hm
          simp at hm
      · rcases List.mem_append.mp hm with hm | hm
        · rcases List.mem_cons.mp hm with rfl | hm
          · rfl
          · rcases List.mem_cons.mp hm with rfl | hm
            · rfl
            · rcases List.mem_append.mp hm with hm | hm
              · exact (hn_ok c hm).2
              · exact hE_unsafe c hm
        · rcases List.mem_append.mp hm with hm | hm
          · revert hm
            split
            · intro hm
              rcases List.mem_cons.mp hm with rfl | hm
              · rfl
              · exact (hq_ok c hm).2
            · intro hm
              simp at hm
          · revert hm
            split
            · intro hm
              rcases List.mem_cons.mp hm with rfl | hm
              · rfl
              · exact hf_ok c hm
            · intro hm
              simp at hm
    have h1 : stripUnsafe (unpAll r) = unpAll r := stripUnsafe_eq_self hnounsafe
    -- the scheme step
    have h2 : schemeSplit (unpAll r) = (r.scheme,
        '/' :: '/' :: (r.netloc ++ (ensureSlash (joinParams r) ++
          ((if r.query ≠ [] then '?' :: r.query else []) ++
            (if r.fragment ≠ [] then '#' :: r.fragment else []))))) := by
      rw [hy, hbody]
      by_cases hs : r.scheme ≠ []
      · rw [if_pos hs]
        have hassoc : (r.scheme ++ [':']) ++
            ('/' :: '/' :: (r.netloc ++ (ensureSlash (joinParams r) ++
              ((if r.query ≠ [] then '?' :: r.query else []) ++
                (if r.fragment ≠ [] then '#' :: r.fragment else []))))) =
            r.scheme ++ ':' :: ('/' :: '/' :: (r.netloc ++ (ensureSlash (joinParams r) ++
              ((if r.query ≠ [] then '?' :: r.query else []) ++
                (if r.fragment ≠ [] then '#' :: r.fragment else []))))) := by
          simp
        rw [hassoc, schemeSplit_pos hcolon (hs_head.resolve_left hs) (fun c hc => (hs_ok c hc).1),
          hs_lower]
      · rw [not_not] at hs
        rw [if_neg (by rw [hs]; exact fun hcc => hcc rfl), List.nil_append]
        rw [hs]
        exact schemeSplit_of_noscheme (noSchemeAt_of_head_slash (Or.inr ⟨_, rfl⟩))
    -- the netloc step
    have h3 : netlocSplit ('/' :: '/' :: (r.netloc ++ (ensureSlash (joinParams r) ++
        ((if r.query ≠ [] then '?' :: r.query else []) ++
          (if r.fragment ≠ [] then '#' :: r.fragment else []))))) =
        some (r.netloc, ensureSlash (joinParams r) ++
          ((if r.query ≠ [] then '?' :: r.query else []) ++
            (if r.fragment ≠ [] then '#' :: r.fragment else []))) := by
      apply netlocSplit_pos (fun c hc => (hn_ok c hc).1) ?_ hn_br
      intro d t hdt
      rcases ensureSlash_head (joinParams r) with hE | ⟨t2, hE⟩
      · rw [hE, List.nil_append] at hdt
        rcases hQF with hqf | ⟨c, t3, hqf, hc⟩
        · rw [hqf] at hdt
          exact absurd hdt.symm (List.cons_ne_nil d t)
        · rw [hqf] at hdt
          injection hdt with hd _
          rcases hc with rfl | rfl
          · rw [← hd]
            rfl
          · rw [← hd]
            rfl
      · rw [hE, List.cons_append] at hdt
        injection hdt with hd _
        rw [← hd]
        rfl
    -- the fragment and query steps
    obtain ⟨h4, h5⟩ := @fragquery_of_shape (ensureSlash (joinParams r)) r.query r.fragment
      hE_noq hE_nof (fun hm => (hq_ok '#' hm).1 rfl)
    rw [if_pos hcond]
    simp only [urlsplit, h1, h2, h3, h4, h5, checknetloc_true, if_true]
  · -- without a netloc region: the netloc must be empty
    rw [if_neg hcond] at hy
    have hnnil : r.netloc = [] := by
      by_contra hne
      exact hcond (Or.inl hne)
    have hnounsafe : NoUnsafe (unpAll r) := by
      rw [hy]
      intro c hc
      rcases List.mem_append.mp hc with hm | hm
      · revert hm
        split
        · intro hm
          rcases List.mem_append.mp hm with hm | hm
          · have hmem := (hs_ok c hm).1
            have hdec : ∀ d ∈ schemeChars, isUnsafeChar d = false := by decide
            exact hdec c hmem
          · rcases List.mem_singleton.mp hm with rfl
            rfl
        · intro hm
          simp at hm
      · rcases List.mem_append.mp hm with hm | hm
        · exact hjp_unsafe c hm
        · rcases List.mem_append.mp hm with hm | hm
          · revert hm
            split
            · intro hm
              rcases List.mem_cons.mp hm with rfl | hm
              · rfl
              · exact (hq_ok c hm).2
            · intro hm
              simp at hm
          · revert hm
            split
            · intro hm
              rcases List.mem_cons.mp hm with rfl | hm
              · rfl
              · exact hf_ok c hm
            · intro hm
              simp at hm
    have h1 : stripUnsafe (unpAll r) = unpAll r := stripUnsafe_eq_self hnounsafe
    -- the scheme step
    have h2 : schemeSplit (unpAll r) = (r.scheme, joinParams r ++
        ((if r.query ≠ [] then '?' :: r.query else []) ++
          (if r.fragment ≠ [] then '#' :: r.fragment else []))) := by
      rw [hy]
      by_cases hs : r.scheme ≠ []
      · rw [if_pos hs]
        have hassoc : (r.scheme ++ [':']) ++ (joinParams r ++
            ((if r.query ≠ [] then '?' :: r.query else []) ++
              (if r.fragment ≠ [] then '#' :: r.fragment else []))) =
            r.scheme ++ ':' :: (joinParams r ++
            ((if r.query ≠ [] then '?' :: r.query else []) ++
              (if r.fragment ≠ [] then '#' :: r.fragment else []))) := by
          simp
        rw [hassoc, schemeSplit_pos hcolon (hs_head.resolve_left hs) (fun c hc => (hs_ok c hc).1),
          hs_lower]
      · rw [not_not] at hs
        rw [if_neg (by rw [hs]; exact fun hcc => hcc rfl), List.nil_append]
        rw [hs]
        apply schemeSplit_of_noscheme
        have hnsP : NoSchemeAt r.path := hnos hs
        have hnsu0 : NoSchemeAt (joinParams r) := by
          rw [joinParams_eq]
          apply noSchemeAt_extend ?_ hnsP
          split
          · exact Or.inr ⟨';', r.params, rfl, by decide, by decide⟩
          · exact Or.inl rfl
        apply noSchemeAt_extend ?_ hnsu0
        rcases hQF with hqf | ⟨c, t, hqf, hc⟩
        · exact Or.inl hqf
        · refine Or.inr ⟨c, t, hqf, ?_, ?_⟩
          · rcases hc with rfl | rfl
            · decide
            · decide
          · rcases hc with rfl | rfl
            · decide
            · decide
    -- the netloc step: no leading double slash
    have h3 : netlocSplit (joinParams r ++
        ((if r.query ≠ [] then '?' :: r.query else []) ++
          (if r.fragment ≠ [] then '#' :: r.fragment else []))) =
        some ([], joinParams r ++
          ((if r.query ≠ [] then '?' :: r.query else []) ++
            (if r.fragment ≠ [] then '#' :: r.fragment else []))) := by
      apply netlocSplit_not_slashslash
      apply take2_append_ne hu0take
      rcases hQF with hqf | ⟨c, t, hqf, hc⟩
      · exact Or.inl hqf
      · refine Or.inr ⟨c, t, hqf, ?_⟩
        rcases hc with rfl | rfl
        · decide
        · decide
    obtain ⟨h4, h5⟩ := @fragquery_of_shape (joinParams r) r.query r.fragment
      hjp_noq hjp_nof (fun hm => (hq_ok '#' hm).1 rfl)
    rw [if_neg hcond, hnnil]
    simp only [urlsplit, h1, h2, h3, h4, h5, checknetloc_true, if_true]

/-- `_splitparams` leaves a `TailNoSemi` path unsplit. -/
theorem splitparams_tailNoSemi {RP : List Char} (h : TailNoSemi RP) (hs : ';' ∈ RP) :
    splitparams RP = (RP, []) := by
  by_cases hsl : '/' ∈ RP
  · obtain ⟨a, b, hab, hb⟩ := exists_last_occ RP hsl
    have hsb : ';' ∉ b := h.2 a b hab hb
    rw [hab]
    exact splitparams_slash_nosemi hb hsb
  · exact absurd hs (h.1 hsl)

/-- `_splitparams` splits a `TailNoSemi` path from appended params exactly. -/
theorem splitparams_tailNoSemi_params {RP prm : List Char} (h : TailNoSemi RP)
    (hprm : '/' ∉ prm) :
    splitparams (RP ++ ';' :: prm) = (RP, prm) := by
  by_cases hsl : '/' ∈ RP
  · obtain ⟨a, b, hab, hb⟩ := exists_last_occ RP hsl
    have hsb : ';' ∉ b := h.2 a b hab hb
    rw [hab]
    have he : (a ++ '/' :: b) ++ ';' :: prm = a ++ '/' :: (b ++ ';' :: prm) := by
      simp
    rw [he]
    exact splitparams_slash_semi hb hprm hsb
  · exact splitparams_noslash_semi hsl hprm (h.1 hsl)

/-- The re-parsed path keeps the `TailNoSemi` invariant of the path. -/
theorem tailNoSemi_reparsePath {r : ParseResult} (h : TailNoSemi r.path) :
    TailNoSemi (reparsePath r) := by
  unfold reparsePath
  split
  · split
    · exact tailNoSemi_cons_slash h
    · exact h
  · exact h

/-- The possibly slash-ensured path-plus-params string is the re-parsed path
followed by the optional params. -/
theorem PP_decomp (r : ParseResult) :
    (if r.netloc ≠ [] ∨ (r.scheme ≠ [] ∧ r.scheme ∈ usesNetloc ∧
        (joinParams r).take 2 ≠ ['/', '/'])
      then ensureSlash (joinParams r) else joinParams r) =
    reparsePath r ++ (if r.params ≠ [] then ';' :: r.params else []) := by
  unfold reparsePath ensureSlash
  by_cases hc : r.netloc ≠ [] ∨ (r.scheme ≠ [] ∧ r.scheme ∈ usesNetloc ∧
      (joinParams r).take 2 ≠ ['/', '/'])
  · rw [if_pos hc, if_pos hc]
    by_cases he : joinParams r ≠ [] ∧ (joinParams r).take 1 ≠ ['/']
    · rw [if_pos he, if_pos he]
      rw [joinParams_eq]
      simp
    · rw [if_neg he, if_neg he]
      exact joinParams_eq r
  · rw [if_neg hc, if_neg hc]
    exact joinParams_eq r

/-- Reassembling a normalized parse result and parsing the result again
succeeds and yields the round-trip result. -/
theorem urlparse_unpAll {r : ParseResult} (h : NormInv r) :
    urlparse (unpAll r) = some (reparseResult r) := by
  have hsplit := urlsplit_unpAll h
  rw [PP_decomp r] at hsplit
  obtain ⟨⟨hs_ok, hs_head, hn_ok, hn_br, hp_ok, hpar_ok, hpar_s, hpar_t, hq_ok, hf_ok,
    hnos⟩, hn_fix, hp_fix⟩ := h
  unfold urlparse
  rw [hsplit]
  dsimp only
  by_cases hprm : r.params ≠ []
  · -- with params the guard holds and splitparams recovers them
    rw [if_pos hprm]
    have hmem : r.scheme ∈ usesParams := hpar_s hprm
    have htns : TailNoSemi (reparsePath r) := tailNoSemi_reparsePath (hpar_t hmem)
    have hguard : r.scheme ∈ usesParams ∧ ';' ∈ reparsePath r ++ ';' :: r.params :=
      ⟨hmem, List.mem_append_right _ (List.mem_cons_self _ _)⟩
    rw [if_pos hguard]
    rw [splitparams_tailNoSemi_params htns (fun hm => (hpar_ok '/' hm).1 rfl)]
    rfl
  · -- without params the path comes back bare
    rw [not_not] at hprm
    rw [if_neg (not_not_intro hprm), List.append_nil]
    by_cases hguard : r.scheme ∈ usesParams ∧ ';' ∈ reparsePath r
    · rw [if_pos hguard]
      have htns : TailNoSemi (reparsePath r) := tailNoSemi_reparsePath (hpar_t hguard.1)
      rw [splitparams_tailNoSemi htns hguard.2]
      unfold reparseResult
      rw [hprm]
    · rw [if_neg hguard]
      unfold reparseResult
      rw [hprm]

/-- A collapse-fixed list that does not start with a slash is also fixed under
the after-slash state. -/
theorem collapseAux_true_of_fix {l : List Char} (hfix : collapseAux false l = l)
    (hhead : l.take 1 ≠ ['/']) : collapseAux true l = l := by
  cases l with
  | nil => rfl
  | cons c t =>
    by_cases hc : c = '/'
    · subst hc
      exact absurd rfl hhead
    · rw [collapseAux_nonslash true c t hc]
      rw [collapseAux_nonslash false c t hc] at hfix
      injection hfix with _ h2
      rw [h2]

/-- The re-parsed path of a slash-collapsed path is still slash-collapsed. -/
theorem collapse_reparsePath {r : ParseResult}
    (hp_fix : collapseSlashes r.path = r.path) :
    collapseSlashes (reparsePath r) = reparsePath r := by
  unfold reparsePath
  split
  · split
    · rename_i hens
      have hhead : r.path.take 1 ≠ ['/'] := by
        intro hcontra
        apply hens.2
        rw [joinParams_eq]
        cases hp : r.path with
        | nil =>
          rw [hp] at hcontra
          simp at hcontra
        | cons c t =>
          rw [hp] at hcontra
          have hc : c = '/' := by
            rw [show (c :: t).take 1 = [c] from rfl] at hcontra
            injection hcontra with h1 _
          rw [hc]
          rfl
      show collapseAux false ('/' :: r.path) = _
      rw [collapseAux_false_slash, collapseAux_true_of_fix hp_fix hhead]
    · exact hp_fix
  · exact hp_fix

/-- Reassembling the round-trip result after normalizing its components gives
back the reassembly of the original normalized result. -/
theorem unpAll_fixed {r : ParseResult} (h : NormInv r) :
    unpAll (normComponents (reparseResult r)) = unpAll r := by
  obtain ⟨hinv, hn_fix, hp_fix⟩ := h
  have hRP : collapseSlashes (reparsePath r) = reparsePath r := collapse_reparsePath hp_fix
  have hcomp : normComponents (reparseResult r) = reparseResult r := by
    show (⟨r.scheme, pyLower r.netloc, collapseSlashes (reparsePath r), r.params, r.query,
      r.fragment⟩ : ParseResult) = reparseResult r
    rw [hn_fix, hRP]
    rfl
  rw [hcomp]
  show urlunsplit r.scheme r.netloc (joinParams (reparseResult r)) r.query r.fragment
      = urlunsplit r.scheme r.netloc (joinParams r) r.query r.fragment
  by_cases hens : (r.netloc ≠ [] ∨ (r.scheme ≠ [] ∧ r.scheme ∈ usesNetloc ∧
      (joinParams r).take 2 ≠ ['/', '/'])) ∧
      (joinParams r ≠ [] ∧ (joinParams r).take 1 ≠ ['/'])
  · -- the re-parsed path gained a leading slash
    have hRPeq : reparsePath r = '/' :: r.path := by
      unfold reparsePath
      rw [if_pos hens.1, if_pos hens.2]
    have hjp : joinParams (reparseResult r) = '/' :: joinParams r := by
      show (if r.params ≠ [] then reparsePath r ++ ';' :: r.params else reparsePath r) = _
      rw [hRPeq, joinParams_eq]
      by_cases hprm : r.params ≠ []
      · rw [if_pos hprm, if_pos hprm]
        exact List.cons_append '/' r.path (';' :: r.params)
      · rw [if_neg hprm, if_neg hprm, List.append_nil]
    rw [hjp]
    have h2take : ('/' :: joinParams r).take 2 ≠ ['/', '/'] := by
      intro hcontra
      rw [show ('/' :: joinParams r).take 2 = '/' :: (joinParams r).take 1 from rfl]
        at hcontra
      injection hcontra with _ h2
      exact hens.2.2 h2
    have hcond2 : r.netloc ≠ [] ∨ (r.scheme ≠ [] ∧ r.scheme ∈ usesNetloc ∧
        ('/' :: joinParams r).take 2 ≠ ['/', '/']) := by
      rcases hens.1 with hn | ⟨hs1, hs2, _⟩
      · exact Or.inl hn
      · exact Or.inr ⟨hs1, hs2, h2take⟩
    rw [urlunsplit_shape, urlunsplit_shape, if_pos hcond2, if_pos hens.1]
    have hE1 : ensureSlash ('/' :: joinParams r) = '/' :: joinParams r := by
      unfold ensureSlash
      rw [if_neg]
      intro hcontra
      exact hcontra.2 rfl
    have hE2 : ensureSlash (joinParams r) = '/' :: joinParams r := by
      unfold ensureSlash
      rw [if_pos hens.2]
    rw [hE1, hE2]
  · -- the re-parsed path is the path itself
    have hRPeq : reparsePath r = r.path := by
      unfold reparsePath
      split
      · rename_i h1
        rw [if_neg (fun h2 => hens ⟨h1, h2⟩)]
      · rfl
    have hjp : joinParams (reparseResult r) = joinParams r := by
      show (if r.params ≠ [] then reparsePath r ++ ';' :: r.params else reparsePath r) = _
      rw [hRPeq]
      rfl
    rw [hjp]

/-- `normalize_url` is idempotent: on parse failure it is the identity, and on
success the reassembled URL parses back to the round-trip result, whose
component normalization is a fixed point. -/
theorem normalize_url_idem (url : List Char) :
    normalize_url (normalize_url url) = normalize_url url := by
  cases hp : urlparse url with
  | none =>
    have h1 : normalize_url url = url := by
      unfold normalize_url
      rw [hp]
    rw [h1, h1]
  | some r =>
    have hninv : NormInv (normComponents r) := normInv_of_parseInv (urlparse_inv hp)
    have heq : normalize_url url = unpAll (normComponents r) := by
      rw [normalize_url_parse_eq hp]
      rfl
    rw [heq]
    have hparse2 : urlparse (unpAll (normComponents r)) =
        some (reparseResult (normComponents r)) := urlparse_unpAll hninv
    rw [normalize_url_parse_eq hparse2]
    show unpAll (normComponents (reparseResult (normComponents r))) =
      unpAll (normComponents r)
    exact unpAll_fixed hninv

/-- Unfolding `HasEqNoNl` over a leading character. -/
theorem hasEqNoNl_cons (c : Char) (t : List Char) :
    HasEqNoNl (c :: t) ↔ c = '=' ∨ (¬c = '\n' ∧ HasEqNoNl t) := by
  constructor
  · rintro ⟨m, b, hmb, hnl⟩
    cases m with
    | nil =>
      injection hmb with h1 _
      exact Or.inl h1
    | cons d m' =>
      injection hmb with h1 h2
      refine Or.inr ⟨?_, m', b, h2, fun hm => hnl (List.mem_cons_of_mem _ hm)⟩
      intro hc
      exact hnl (by rw [← h1, ← hc]; exact List.mem_cons_self _ _)
  · rintro (rfl | ⟨hc, m, b, hmb, hnl⟩)
    · exact ⟨[], t, rfl, by simp⟩
    · refine ⟨c :: m, b, by rw [hmb]; rfl, ?_⟩
      intro hm
      rcases List.mem_cons.mp hm with h | h
      · exact hc h.symm
      · exact hnl h

/-- Unfolding `HasQEqNoNl` over a leading character. -/
theorem hasQEqNoNl_cons (c : Char) (t : List Char) :
    HasQEqNoNl (c :: t) ↔ (c = '?' ∧ HasEqNoNl t) ∨ HasQEqNoNl t := by
  constructor
  · rintro ⟨a, m, b, hab, hnl⟩
    cases a with
    | nil =>
      injection hab with h1 h2
      exact Or.inl ⟨h1, m, b, h2, hnl⟩
    | cons d a' =>
      injection hab with h1 h2
      exact Or.inr ⟨a', m, b, h2, hnl⟩
  · rintro (⟨rfl, m, b, hmb, hnl⟩ | ⟨a, m, b, hab, hnl⟩)
    · exact ⟨[], m, b, by rw [hmb]; rfl, hnl⟩
    · exact ⟨c :: a, m, b, by rw [hab]; simp, hnl⟩

/-- The regex scan decides the no-newline `?`-then-`=` criteria, in both flag
states. -/
theorem paramSearchAux_char (l : List Char) :
    (paramSearchAux false l = true ↔ HasQEqNoNl l) ∧
      (paramSearchAux true l = true ↔ (HasEqNoNl l ∨ HasQEqNoNl l)) := by
  induction l with
  | nil =>
    refine ⟨⟨fun h => absurd h (by decide), ?_⟩, ⟨fun h => absurd h (by decide), ?_⟩⟩
    · rintro ⟨a, m, b, hab, -⟩
      exact absurd hab.symm (by simp)
    · rintro (⟨m, b, hmb, -⟩ | ⟨a, m, b, hab, -⟩)
      · exact absurd hmb.symm (by simp)
      · exact absurd hab.symm (by simp)
  | cons c t ih =>
    obtain ⟨ih0, ih1⟩ := ih
    constructor
    · by_cases hn : c = '\n'
      · subst hn
        rw [show paramSearchAux false ('\n' :: t) = paramSearchAux false t by
          simp [paramSearchAux], ih0, hasQEqNoNl_cons]
        constructor
        · exact Or.inr
        · rintro (⟨h, -⟩ | h)
          · exact absurd h (by decide)
          · exact h
      · by_cases hq : c = '?'
        · subst hq
          rw [show paramSearchAux false ('?' :: t) = paramSearchAux true t by
            simp [paramSearchAux], ih1, hasQEqNoNl_cons]
          constructor
          · rintro (h | h)
            · exact Or.inl ⟨rfl, h⟩
            · exact Or.inr h
          · rintro (⟨-, h⟩ | h)
            · exact Or.inl h
            · exact Or.inr h
        · have hn2 : (c == '\n') = false := by simp [hn]
          have hq2 : (c == '?') = false := by simp [hq]
          rw [show paramSearchAux false (c :: t) = paramSearchAux false t by
            simp [paramSearchAux, hn2, hq2], ih0, hasQEqNoNl_cons]
          constructor
          · exact Or.inr
          · rintro (⟨h, -⟩ | h)
            · exact absurd h hq
            · exact h
    · by_cases he : c = '='
      · subst he
        rw [show paramSearchAux true ('=' :: t) = true by simp [paramSearchAux],
          hasEqNoNl_cons]
        constructor
        · intro _
          exact Or.inl (Or.inl rfl)
        · intro _
          rfl
      · by_cases hn : c = '\n'
        · subst hn
          rw [show paramSearchAux true ('\n' :: t) = paramSearchAux false t by
            simp [paramSearchAux], ih0, hasEqNoNl_cons, hasQEqNoNl_cons]
          constructor
          · intro h
            exact Or.inr (Or.inr h)
          · rintro ((h | ⟨h, -⟩) | (⟨h, -⟩ | h))
            · exact absurd h (by decide)
            · exact absurd rfl h
            · exact absurd h (by decide)
            · exact h
        · have hn2 : (c == '\n') = false := by simp [hn]
          have he2 : (c == '=') = false := by simp [he]
          rw [show paramSearchAux true (c :: t) = paramSearchAux true t by
            simp [paramSearchAux, he2, hn2], ih1, hasEqNoNl_cons, hasQEqNoNl_cons]
          constructor
          · rintro (h | h)
            · exact Or.inl (Or.inr ⟨hn, h⟩)
            · exact Or.inr (Or.inr h)
          · rintro ((h | ⟨-, h⟩) | (⟨-, h⟩ | h))
            · exact absurd h he
            · exact Or.inl h
            · exact Or.inl h
            · exact Or.inr h

/-- The filter stage returns the normalized forms of the inputs the classifier
accepts, in input order. -/
theorem filter_urls_eq (urls : List (List Char)) :
    filter_urls_parallel urls =
      (urls.filter fun u => (is_param_url u).isSome).map normalize_url := by
  induction urls with
  | nil => rfl
  | cons u t ih =>
    cases hipu : is_param_url u with
    | none =>
      simp only [filter_urls_parallel] at ih
      simp only [filter_urls_parallel, List.map_cons, List.filter_cons, hipu,
        show strOptTruthy none = false from rfl, Option.isSome_none,
        Bool.false_eq_true, if_false]
      exact ih
    | some s =>
      have hb : param_pattern_search (normalize_url u) = true := by
        by_contra hb
        have hnone : is_param_url u = none := by
          show (if param_pattern_search (normalize_url u) then some (normalize_url u)
            else none) = none
          rw [if_neg hb]
        rw [hnone] at hipu
        exact absurd hipu (by simp)
      have hs : s = normalize_url u := by
        have hsome : is_param_url u = some (normalize_url u) := by
          show (if param_pattern_search (normalize_url u) then some (normalize_url u)
            else none) = _
          rw [if_pos hb]
        rw [hsome] at hipu
        exact (Option.some.inj hipu).symm
      have hne : s.isEmpty = false := by
        rw [hs]
        cases hnu : normalize_url u with
        | nil =>
          rw [hnu] at hb
          exact absurd hb (by decide)
        | cons a r2 => rfl
      simp only [filter_urls_parallel] at ih
      simp only [filter_urls_parallel, List.map_cons, List.filter_cons, hipu,
        show strOptTruthy (some s) = !s.isEmpty from rfl, hne, Option.isSome_some,
        if_true, Bool.not_false, List.filterMap_cons, id]
      rw [hs, ih]

/-- C10: when the list passed to the file-append operation is empty, the block
written to the sink is the single newline character, so the sink gains one
blank line instead of remaining unchanged. -/
theorem c10_empty_append_blank_line : append_to_file [] = ['\n'] := rfl

/-- C1 (code bug): the Progress Aggregator does not terminate on the `Done`
sentinel (the `done` message matches no branch, leaving the manager blocked on
an empty queue), and its only termination path is the count comparison
`output_queue.qsize() == 0 and processed_domains == len(domains)`, which can
never complete because `domains` is not in scope: a `complete` message
consumed with an empty queue crashes with `NameError`, and no consumption
trace whatsoever reaches the `break`. -/
theorem c1_manager_termination_bug :
    output_manager [(⟨"done".data, [], 0, 0⟩, 0)] 0 0 0 = ManagerOutcome.blocked 0 0 0
  ∧ output_manager [(⟨"complete".data, "d".data, 3, 1⟩, 0)] 0 0 0
      = ManagerOutcome.nameError 3 1 1
  ∧ ∀ msgs a p d, isStopped (output_manager msgs a p d) = false :=
  ⟨rfl, rfl, fun msgs => output_manager_not_stopped msgs⟩

/-- C2 (code bug): the final report of `main` is unreachable.  On the
single-domain trace where the manager consumes the domain's `complete` message
while the queue is momentarily empty, `output_manager` raises `NameError`, and
over every possible consumption trace the run either hangs awaiting the
manager or crashes -- it never reports the final totals (which `main` could not
print anyway, since `total_all_urls` is local to `output_manager`). -/
theorem c2_run_never_reports :
    main_run [(⟨"complete".data, "example.com".data, 2, 1⟩, 0)] = RunOutcome.nameError
  ∧ ∀ msgs, isReported (main_run msgs) = false := by
  refine ⟨rfl, fun msgs => ?_⟩
  unfold main_run
  cases h : output_manager msgs 0 0 0 with
  | blocked a p d => rfl
  | nameError a p d => rfl
  | stopped a p d =>
    have h2 := output_manager_not_stopped msgs 0 0 0
    rw [h] at h2
    simp [isStopped] at h2

/-- C5: `normalize_url` is total, and whenever parsing fails it returns the
original input string unchanged. -/
theorem c5_normalize_fallback (url : List Char) (h : urlparse url = none) :
    normalize_url url = url := by
  unfold normalize_url
  rw [h]

/-- Witness for C5 at the concrete input `http://[a`, whose netloc has an
unmatched bracket and therefore fails to parse. -/
theorem c5_witness :
    urlparse "http://[a".data = none ∧ normalize_url "http://[a".data = "http://[a".data :=
  ⟨rfl, c5_normalize_fallback "http://[a".data rfl⟩

/-- C8: for every domain and every streamed line sequence, the domain task
emits exactly one `complete` message; it is the final event of the task's
trace, so it comes strictly after every `partial` message and after both file
appends, and no `partial` for the domain follows it; both appends (full set to
`all_urls.txt`, filtered set to `param_urls.txt`) occur before it. -/
theorem c8_complete_once_and_last (domain : List Char) (raw : List (List Char)) :
    ((process_domain domain raw).2).countP isCompleteEv = 1
  ∧ ((process_domain domain raw).2).getLast?
      = some (Ev.put ⟨"complete".data, domain,
          (process_domain domain raw).1.1, (process_domain domain raw).1.2⟩)
  ∧ (((process_domain domain raw).2).dropLast).countP isCompleteEv = 0
  ∧ Ev.fileAppend "all_urls.txt".data (fetch_all_urls domain raw).1
      ∈ ((process_domain domain raw).2).dropLast
  ∧ Ev.fileAppend "param_urls.txt".data (filter_urls_parallel (fetch_all_urls domain raw).1)
      ∈ ((process_domain domain raw).2).dropLast := by
  have hshape : (process_domain domain raw).2 =
      ((fetch_all_urls domain raw).2 ++
        [Ev.fileAppend "all_urls.txt".data (fetch_all_urls domain raw).1,
         Ev.fileAppend "param_urls.txt".data (filter_urls_parallel (fetch_all_urls domain raw).1)]) ++
      [Ev.put ⟨"complete".data, domain,
        (process_domain domain raw).1.1, (process_domain domain raw).1.2⟩] := by
    simp [process_domain]
  have hfetch := fetchAux_not_complete domain raw 0
  refine ⟨?_, ?_, ?_, ?_, ?_⟩
  · rw [hshape, List.countP_append, List.countP_append]
    have h1 : ((fetch_all_urls domain raw).2).countP isCompleteEv = 0 := by
      rw [List.countP_eq_zero]
      intro e he
      simpa using hfetch e he
    rw [h1]
    rfl
  · rw [hshape, List.getLast?_concat]
  · rw [hshape, List.dropLast_concat, List.countP_eq_zero]
    intro e he
    rcases List.mem_append.mp he with he | he
    · simpa using hfetch e he
    · rcases List.mem_cons.mp he with rfl | he
      · simp [isCompleteEv]
      · rcases List.mem_singleton.mp he with rfl
        simp [isCompleteEv]
  · rw [hshape, List.dropLast_concat]
    exact List.mem_append_right _ (by simp)
  · rw [hshape, List.dropLast_concat]
    exact List.mem_append_right _ (by simp)

/-- C3 counterexample: at the concrete input `http://[a?\n=` parsing fails (an
unmatched bracket in the netloc), so the normalized string is the input itself;
it does contain a `?` followed later by a `=` -- the claim's criterion, stated
by `qThenEq` -- yet `is_param_url` returns `None`, because the regex `.`
cannot cross the newline standing between the `?` and the `=`. -/
theorem c3_counterexample :
    normalize_url "http://[a?\n=".data = "http://[a?\n=".data
  ∧ qThenEq (normalize_url "http://[a?\n=".data) = true
  ∧ is_param_url "http://[a?\n=".data = none :=
  ⟨rfl, rfl, rfl⟩

/-- C7 counterexample: on the one-element input list holding
`http://EX.com//a//b?x=1` the filter stage returns the normalized string
`http://ex.com/a/b?x=1`, which is not an element of the input list, so the
output is not the subset of input elements satisfying the classifier. -/
theorem c7_counterexample :
    filter_urls_parallel ["http://EX.com//a//b?x=1".data] = ["http://ex.com/a/b?x=1".data]
  ∧ (filter_urls_parallel ["http://EX.com//a//b?x=1".data]
      == ["http://EX.com//a//b?x=1".data].filter fun u => (is_param_url u).isSome) = false :=
  ⟨rfl, rfl⟩

/-- C4: for every parseable URL, `normalize_url` reassembles the parsed
components with the netloc lowercased, every run of consecutive slashes in the
path collapsed to one (stated through the specification-side
`collapseRunsSpec`), and the params, query and fragment left unchanged; and
the concrete example normalizes as the specification states. -/
theorem c4_normalize_components :
    (∀ url r, urlparse url = some r →
      normalize_url url =
        urlunparse r.scheme (pyLower r.netloc) (collapseRunsSpec r.path)
          r.params r.query r.fragment)
  ∧ normalize_url "http://EX.com//a//b?x=1".data = "http://ex.com/a/b?x=1".data := by
  constructor
  · intro url r h
    rw [normalize_url_parse_eq h, collapseSlashes_eq_spec]
  · rfl

/-- Witness for C4: the example URL parses, and the theorem applied to it
computes the normalized form. -/
theorem c4_witness :
    urlparse "http://EX.com//a//b?x=1".data
      = some ⟨"http".data, "EX.com".data, "//a//b".data, [], "x=1".data, []⟩
  ∧ normalize_url "http://EX.com//a//b?x=1".data
      = urlunparse "http".data (pyLower "EX.com".data) (collapseRunsSpec "//a//b".data)
          [] "x=1".data [] :=
  ⟨rfl, c4_normalize_components.1 "http://EX.com//a//b?x=1".data
    ⟨"http".data, "EX.com".data, "//a//b".data, [], "x=1".data, []⟩ rfl⟩

/-- C3 (amended): the classifier accepts a URL exactly when its normalized
form contains a `?` followed, later in the string, by a `=` with no newline
character strictly between them; the example `http://EX.com//a//b?x=1` is
classified parameterized and `http://ex.com/a/b` is not. -/
theorem c3_amended :
    (∀ url : List Char,
      ((is_param_url url).isSome = true ↔ HasQEqNoNl (normalize_url url)))
  ∧ (is_param_url "http://EX.com//a//b?x=1".data).isSome = true
  ∧ is_param_url "http://ex.com/a/b".data = none := by
  refine ⟨?_, rfl, rfl⟩
  intro url
  have hchar := (paramSearchAux_char (normalize_url url)).1
  constructor
  · intro h
    by_cases hb : param_pattern_search (normalize_url url) = true
    · exact hchar.mp hb
    · exfalso
      have hnone : is_param_url url = none := by
        show (if param_pattern_search (normalize_url url) then some (normalize_url url)
          else none) = none
        rw [if_neg hb]
      rw [hnone] at h
      exact absurd h (by simp)
  · intro h
    have hb : param_pattern_search (normalize_url url) = true := hchar.mpr h
    show (if param_pattern_search (normalize_url url) then some (normalize_url url)
      else none).isSome = true
    rw [if_pos hb]
    rfl

/-- C6: `normalize_url` is idempotent: for every input string, normalizing the
normalized string yields it unchanged. -/
theorem c6_normalize_idempotent :
    ∀ url : List Char, normalize_url (normalize_url url) = normalize_url url :=
  normalize_url_idem

/-- C7 (amended): the filter stage returns the normalized forms of exactly the
inputs the classifier accepts, in input order; hence its output size is at
most the input size and every output element satisfies the classifier. -/
theorem c7_amended :
    (∀ urls : List (List Char), filter_urls_parallel urls =
        (urls.filter fun u => (is_param_url u).isSome).map normalize_url)
  ∧ (∀ urls : List (List Char),
      (filter_urls_parallel urls).length ≤ urls.length)
  ∧ (∀ urls : List (List Char),
      (filter_urls_parallel urls).all (fun v => (is_param_url v).isSome) = true) := by
  refine ⟨filter_urls_eq, ?_, ?_⟩
  · intro urls
    rw [filter_urls_eq, List.length_map]
    exact List.length_filter_le _ _
  · intro urls
    rw [List.all_eq_true]
    intro v hv
    rw [filter_urls_eq] at hv
    obtain ⟨u, hu, rfl⟩ := List.mem_map.mp hv
    have hu2 : (is_param_url u).isSome = true := (List.mem_filter.mp hu).2
    have hb : param_pattern_search (normalize_url u) = true := by
      by_contra hb
      have hnone : is_param_url u = none := by
        show (if param_pattern_search (normalize_url u) then some (normalize_url u)
          else none) = none
        rw [if_neg hb]
      rw [hnone] at hu2
      exact absurd hu2 (by simp)
    have hb2 : param_pattern_search (normalize_url (normalize_url u)) = true := by
      rw [normalize_url_idem]
      exact hb
    show (if param_pattern_search (normalize_url (normalize_url u))
      then some (normalize_url (normalize_url u)) else none).isSome = true
    rw [if_pos hb2]
    rfl

end Crawler
